import Mathlib

/-!
# iio_fm_radio: FM demodulation, gain tracking and the run loop

A shallow embedding of `src/iio_fm_radio.c`.

* `demodulate` follows the C function of the same name statement by statement.
  The raw block is the list of 16-bit values between `iio_buffer_start` and
  `iio_buffer_end`; the globals `min` and `max` are a `GainState` passed in and
  returned; the PulseAudio call is represented by the value it returns.
* `main` follows the C `main` over the outcomes of its collaborators (libiio,
  PulseAudio, the signal handler) and yields the sequence of acquire, release
  and loop events together with the exit status.
* `demodulate_observed` is `demodulate` run together with a record of the
  indices read, the iterations, the tracked values, the store indices and the
  values of the arithmetic; `pass_step` is one pass of the loop of `main` with
  the signal handler `terminate` acting on `app_running`.

Integer model.  `long` and `long long` are 64 bits wide and are represented by
`Int`; their arithmetic is exact, and the values it takes are shown to stay in
the 64-bit range.  The globals `min` and `max` are `int`: the subtraction
`max - min` of lines 96-97 is made in 32 bits and is reduced modulo 2^32 when it
overflows (`gain_range`), as the compiled program does.  The two narrowing
conversions of the function, `new_min = sample` / `new_max = sample` (to `int`)
and `sample_buffer[n] = sample` (to `short`), are written out with `toInt32` and
`toInt16`.  A read outside the raw block has no defined value: the model
returns `none` there.
-/

namespace IioFmRadio

/-! ## Machine arithmetic -/

/-- C integer division, which truncates toward zero. -/
def cdiv (a b : Int) : Int := Int.tdiv a b

/-- Conversion of a 64-bit value to `int`: reduction modulo 2^32 into the signed range. -/
def toInt32 (v : Int) : Int := (v + 2147483648) % 4294967296 - 2147483648

/-- Conversion of a 64-bit value to `short`: reduction modulo 2^16 into the signed range. -/
def toInt16 (v : Int) : Int := (v + 32768) % 65536 - 32768

/-- Range of a `short`, the type of the raw sample values. -/
def isInt16 (v : Int) : Prop := -32768 ≤ v ∧ v ≤ 32767

instance (v : Int) : Decidable (isInt16 v) := by
  unfold isInt16
  exact inferInstance

/-! ## Constants and the gain state -/

/-- Number of I/Q pairs of one acquisition buffer (line 22). -/
def SAMPLES_COUNT : Nat := 16384

/-- Sub-sampling stride of `demodulate`, in I/Q pairs (line 47). -/
def sub : Nat := 4

/-- The globals `min` and `max` (lines 25-26), threaded through the cycles. -/
structure GainState where
  min : Int
  max : Int
deriving DecidableEq, Repr

/-- Initial values of the globals: `min = 0xfffffff`, `max = -0xfffffff`. -/
def initialGain : GainState := { min := 0xfffffff, max := -0xfffffff }

/-! ## demodulate -/

/-- Local variables of `demodulate` that live across loop iterations.
`i1, q1, i2, q2` are `i[1], q[1], i[2], q[2]`; `n` is the length of
`sample_buffer`, which is kept as the growing list of the values stored so far
(its allocated size is `sample_buffer_slots`); `divisors` records, in order,
every value by which the normalisation divides (the `int` value of `max - min`
on line 97). -/
structure LoopState where
  i1 : Int
  q1 : Int
  i2 : Int
  q2 : Int
  sample : Int
  x : Nat
  new_min : Int
  new_max : Int
  sample_buffer : List Int
  divisors : List Int
deriving DecidableEq, Repr

/-- The value of the `int` expression `max - min` (lines 96 and 97): the
difference of the two `int` globals, reduced into the range of `int`.  It is
the exact difference whenever that does not exceed `INT_MAX`. -/
def gain_range (g : GainState) : Int := toInt32 (g.max - g.min)

/-- Lines 96-101: offset, scale by `0x1fff / (max - min)` and clip. -/
def normalize (g : GainState) (sample : Int) : Int :=
  let sample1 := sample - cdiv (gain_range g) 2
  let sample2 := cdiv (sample1 * 0x1fff) (gain_range g)
  if sample2 > 0x1fff then 0x1fff
  else if sample2 < -0x1fff then -0x1fff
  else sample2

/-- The normalisation as the specification words it: subtract the midpoint
`(min + max) / 2` of the previous range, scale by `8191 / (max - min)`, clip to
`[-8191, 8191]`.  It is compared with `normalize`, which follows the code. -/
def normalize_midpoint (g : GainState) (v : Int) : Int :=
  let scaled := cdiv ((v - cdiv (g.min + g.max) 2) * 8191) (g.max - g.min)
  if scaled > 8191 then 8191
  else if scaled < -8191 then -8191
  else scaled

/-- One iteration of the `for` loop (lines 70-106), after `buffer[j]` and
`buffer[j + 1]` have been read into `i0` and `q0`. -/
def body (g : GainState) (s : LoopState) (i0 q0 : Int) : LoopState :=
  let di := i0 - s.i2
  let dq := q0 - s.q2
  let sample := s.sample + (s.i1 * dq - s.q1 * di)
  let x := s.x + sub
  if x = 32 then
    let sample := cdiv sample ((32 / sub : Nat) : Int)
    let new_min := if sample < s.new_min then toInt32 sample else s.new_min
    let new_max := if sample > s.new_max then toInt32 sample else s.new_max
    if g.min ≥ g.max then
      -- `continue`: nothing is stored and `sample` keeps its value
      { i1 := i0, q1 := q0, i2 := s.i1, q2 := s.q1, sample := sample, x := 0,
        new_min := new_min, new_max := new_max,
        sample_buffer := s.sample_buffer, divisors := s.divisors }
    else
      { i1 := i0, q1 := q0, i2 := s.i1, q2 := s.q1, sample := 0, x := 0,
        new_min := new_min, new_max := new_max,
        sample_buffer := s.sample_buffer ++ [toInt16 (normalize g sample)],
        divisors := s.divisors ++ [gain_range g] }
  else
    { i1 := i0, q1 := q0, i2 := s.i1, q2 := s.q1, sample := sample, x := x,
      new_min := s.new_min, new_max := s.new_max,
      sample_buffer := s.sample_buffer, divisors := s.divisors }

/-- The loop `for (j = 2; j < num_bytes / 2; j += 2 * sub)`, started at `j`.
The first argument bounds the number of iterations; `none` is returned when
it is exhausted or when a read falls outside the raw block. -/
def loop (g : GainState) (buffer : List Int) (num_bytes : Nat) :
    Nat → Nat → LoopState → Option LoopState
  | 0, _, _ => none
  | fuel + 1, j, s =>
    if j < num_bytes / 2 then
      match buffer[j]?, buffer[j + 1]? with
      | some i0, some q0 => loop g buffer num_bytes fuel (j + 2 * sub) (body g s i0 q0)
      | _, _ => none
    else some s

/-- Size in bytes of the raw block (`bytes_used`): two bytes per value. -/
def bytes_used (buffer : List Int) : Nat := 2 * buffer.length

/-- Number of `short` slots of the output buffer obtained by
`malloc(num_bytes / 64)` (line 57). -/
def sample_buffer_slots (num_bytes : Nat) : Nat := num_bytes / 64 / 2

/-- What one call of `demodulate` leaves behind: the new values of the globals,
the `n` stored samples, the divisors used, the calls of `pa_simple_write`
(data and byte count) and the return value. -/
structure DemodResult where
  gain : GainState
  samples : List Int
  divisors : List Int
  writes : List (List Int × Nat)
  ret : Int
deriving DecidableEq, Repr

/-- Lines 54-64: the state in which the loop is entered. -/
def init (b0 b1 b2 b3 : Int) : LoopState :=
  { i1 := b2, q1 := b3, i2 := b0, q2 := b1, sample := 0, x := 0,
    new_min := 0xfffffff, new_max := -0xfffffff,
    sample_buffer := [], divisors := [] }

/-- Lines 109-123: update of the globals, the write to the sink and the return
value.  `pa_ret` is the value `pa_simple_write` returns if it is called. -/
def finish (s : LoopState) (pa_ret : Int) : DemodResult :=
  let n := s.sample_buffer.length
  if n = 0 then
    { gain := { min := s.new_min, max := s.new_max }, samples := s.sample_buffer,
      divisors := s.divisors, writes := [], ret := 0 }
  else
    { gain := { min := s.new_min, max := s.new_max }, samples := s.sample_buffer,
      divisors := s.divisors, writes := [(s.sample_buffer, 2 * n)],
      ret := if pa_ret < 0 then -1 else 0 }

/-- The function `demodulate` (lines 41-124) on the incoming gain state `g`
and the raw block `buffer`. -/
def demodulate (g : GainState) (buffer : List Int) (pa_ret : Int) : Option DemodResult :=
  let num_bytes := bytes_used buffer
  match buffer[0]?, buffer[1]?, buffer[2]?, buffer[3]? with
  | some b0, some b1, some b2, some b3 =>
    match loop g buffer num_bytes (num_bytes / 2) 2 (init b0 b1 b2 b3) with
    | some s => some (finish s pa_ret)
    | none => none
  | _, _, _, _ => none

/-- A raw block of whole I/Q pairs, at least two of them. -/
def wellFormed (buffer : List Int) : Prop := 4 ≤ buffer.length ∧ buffer.length % 2 = 0

instance (buffer : List Int) : Decidable (wellFormed buffer) := by
  unfold wellFormed
  exact inferInstance

/-- A raw block of 33 pairs (66 values) whose only non-zero values are
`buffer[0] = 8` and `buffer[3] = 8`: its one group sums to 64. -/
def block_one_group : List Int := [8, 0, 0, 8] ++ List.replicate 62 0

/-- A raw block of 65 pairs (130 values) made the same way: its first group
sums to 64 and its second to 0. -/
def block_two_groups : List Int := [8, 0, 0, 8] ++ List.replicate 126 0

/-! ## main -/

/-- Modelled from the spec: `EXIT_SUCCESS` of the C library, exit status 0. -/
def EXIT_SUCCESS : Int := 0

/-- Modelled from the spec: `EXIT_FAILURE` of the C library, a non-zero exit status. -/
def EXIT_FAILURE : Int := 1

/-- The resources `main` acquires: the IIO context, the acquisition buffer and
the PulseAudio connection. -/
inductive Resource where
  | context
  | buffer
  | sink
deriving DecidableEq, Repr

/-- Observable steps of `main`. -/
inductive Event where
  | acquire (r : Resource)
  | release (r : Resource)
  | refill
  | demod (ret : Int)
deriving DecidableEq, Repr

/-- One pass through the head of the `while` loop: the value of `app_running`
read there and, if the body is entered, the value the call of `demodulate`
returns. -/
structure Cycle where
  app_running : Bool
  demod_ret : Int
deriving DecidableEq, Repr

/-- Outcomes of the collaborators of `main`: whether the context, the two
devices, the buffer and the sink are obtained, and what happens at each pass
of the loop. -/
structure Env where
  ctx_ok : Bool
  dev_ok : Bool
  buf_ok : Bool
  pa_ok : Bool
  cycles : List Cycle
deriving DecidableEq, Repr

/-- Lines 214-218.  `none` when the described passes end with the loop still
running. -/
def run_loop : List Cycle → Option (List Event)
  | [] => none
  | c :: rest =>
    if c.app_running then
      if c.demod_ret ≠ 0 then some [Event.refill, Event.demod c.demod_ret]
      else
        match run_loop rest with
        | some evs => some (Event.refill :: Event.demod c.demod_ret :: evs)
        | none => none
    else some []

/-- The function `main` (lines 148-232): events and exit status. -/
def main (env : Env) : Option (List Event × Int) :=
  if env.ctx_ok = false then some ([], EXIT_FAILURE)
  else if env.dev_ok = false then
    some ([Event.acquire Resource.context, Event.release Resource.context], EXIT_FAILURE)
  else if env.buf_ok = false then
    some ([Event.acquire Resource.context, Event.release Resource.context], EXIT_FAILURE)
  else if env.pa_ok = false then
    some ([Event.acquire Resource.context, Event.acquire Resource.buffer,
           Event.release Resource.buffer, Event.release Resource.context], EXIT_FAILURE)
  else
    match run_loop env.cycles with
    | some evs =>
      some ([Event.acquire Resource.context, Event.acquire Resource.buffer,
             Event.acquire Resource.sink] ++ evs ++
            [Event.release Resource.sink, Event.release Resource.buffer,
             Event.release Resource.context], EXIT_SUCCESS)
    | none => none

/-! ## Observations of one cycle

The same loop, run together with a record of what it does: the indices it
reads, the number of iterations, the value of `sample` after each division by
`32 / sub`, the index of each store into `sample_buffer`, and every value its
arithmetic produces. -/

/-- What is observed of one call of `demodulate`.  `reads` are the indices of
`buffer` that are read, `steps` counts the loop iterations, `tracked` are the
values `sample` takes on line 86 (those compared with `new_min` and `new_max`),
`stores` are the indices `n` of the stores on line 103, and `values` are the
results of the arithmetic of lines 76-97 in the order they are computed, the
`int` value of `max - min` and its half included. -/
structure Observed where
  reads : List Nat
  steps : Nat
  tracked : List Int
  stores : List Nat
  values : List Int
deriving DecidableEq, Repr

/-- Observations before the loop: `buffer[0]` to `buffer[3]` have been read. -/
def observed_init : Observed :=
  { reads := [0, 1, 2, 3], steps := 0, tracked := [], stores := [], values := [] }

/-- Observations added by the iteration that `body g s i0 q0` describes, at
loop index `j`. -/
def observe (g : GainState) (j : Nat) (s : LoopState) (i0 q0 : Int) (o : Observed) : Observed :=
  let di := i0 - s.i2
  let dq := q0 - s.q2
  let p1 := s.i1 * dq
  let p2 := s.q1 * di
  let sample := s.sample + (p1 - p2)
  if s.x + sub = 32 then
    let sample8 := cdiv sample ((32 / sub : Nat) : Int)
    if g.min ≥ g.max then
      { reads := o.reads ++ [j, j + 1], steps := o.steps + 1,
        tracked := o.tracked ++ [sample8], stores := o.stores,
        values := o.values ++ [p1, p2, p1 - p2, sample, sample8] }
    else
      let sample1 := sample8 - cdiv (gain_range g) 2
      { reads := o.reads ++ [j, j + 1], steps := o.steps + 1,
        tracked := o.tracked ++ [sample8],
        stores := o.stores ++ [s.sample_buffer.length],
        values := o.values ++ [p1, p2, p1 - p2, sample, sample8, gain_range g,
          cdiv (gain_range g) 2, sample1, sample1 * 0x1fff,
          cdiv (sample1 * 0x1fff) (gain_range g)] }
  else
    { reads := o.reads ++ [j, j + 1], steps := o.steps + 1, tracked := o.tracked,
      stores := o.stores, values := o.values ++ [p1, p2, p1 - p2, sample] }

/-- The loop of `demodulate` together with its observations: `loop` with one
more accumulator. -/
def loop_observed (g : GainState) (buffer : List Int) (num_bytes : Nat) :
    Nat → Nat → LoopState → Observed → Option (LoopState × Observed)
  | 0, _, _, _ => none
  | fuel + 1, j, s, o =>
    if j < num_bytes / 2 then
      match buffer[j]?, buffer[j + 1]? with
      | some i0, some q0 =>
        loop_observed g buffer num_bytes fuel (j + 2 * sub) (body g s i0 q0) (observe g j s i0 q0 o)
      | _, _ => none
    else some (s, o)

/-- The function `demodulate` together with its observations. -/
def demodulate_observed (g : GainState) (buffer : List Int) (pa_ret : Int) :
    Option (DemodResult × Observed) :=
  let num_bytes := bytes_used buffer
  match buffer[0]?, buffer[1]?, buffer[2]?, buffer[3]? with
  | some b0, some b1, some b2, some b3 =>
    match loop_observed g buffer num_bytes (num_bytes / 2) 2 (init b0 b1 b2 b3) observed_init with
    | some (s, o) => some (finish s pa_ret, o)
    | none => none
  | _, _, _, _ => none

/-- Range of an `int`. -/
def isInt32 (v : Int) : Prop := -2147483648 ≤ v ∧ v ≤ 2147483647

instance (v : Int) : Decidable (isInt32 v) := by
  unfold isInt32
  exact inferInstance

/-- Range of a 64-bit `long` or `long long`. -/
def isInt64 (v : Int) : Prop := -9223372036854775808 ≤ v ∧ v ≤ 9223372036854775807

instance (v : Int) : Decidable (isInt64 v) := by
  unfold isInt64
  exact inferInstance

/-! ## The tracked values in closed form

The description of the tracked values by group sums, to be compared with what
the loop observes. -/

/-- The I/Q pairs in the order the rolling history meets them: pair 0, pair 1,
then the pair read by loop step `t` (at `j = 2 + 8 * t`) in position `t + 2`.
Positions 1 and 2 both hold pair 1, which the first loop step reads again. -/
def pair_seq (buffer : List Int) : Nat → Int × Int
  | 0 => (buffer.getD 0 0, buffer.getD 1 0)
  | 1 => (buffer.getD 2 0, buffer.getD 3 0)
  | t + 2 => (buffer.getD (2 + 8 * t) 0, buffer.getD (2 + 8 * t + 1) 0)

/-- The cross-product term `i[t-1]*(q[t]-q[t-2]) - q[t-1]*(i[t]-i[t-2])` of loop
step `t`. -/
def cross_term (buffer : List Int) (t : Nat) : Int :=
  (pair_seq buffer (t + 1)).1 * ((pair_seq buffer (t + 2)).2 - (pair_seq buffer t).2) -
    (pair_seq buffer (t + 1)).2 * ((pair_seq buffer (t + 2)).1 - (pair_seq buffer t).1)

/-- Sum of the cross-product terms of the first `r` steps of group `k`. -/
def group_sum_upto (buffer : List Int) (k : Nat) : Nat → Int
  | 0 => 0
  | r + 1 => group_sum_upto buffer k r + cross_term buffer (8 * k + r)

/-- The sum `S_k` of the cross-product terms of loop steps `8k .. 8k+7`. -/
def group_sum (buffer : List Int) (k : Nat) : Int := group_sum_upto buffer k 8

/-- The value `v_k`: `S_k / 8` when the incoming gain state has `min < max`;
with `min >= max`, `v_0 = S_0 / 8` and `v_k = (v_(k-1) + S_k) / 8`. -/
def group_value (g : GainState) (buffer : List Int) : Nat → Int
  | 0 => cdiv (group_sum buffer 0) 8
  | k + 1 =>
    if g.min ≥ g.max then cdiv (group_value g buffer k + group_sum buffer (k + 1)) 8
    else cdiv (group_sum buffer (k + 1)) 8

/-- The value `sample` holds when group `k` starts: 0, or the value of the
previous group when the incoming gain state has `min >= max`. -/
def carry_in (g : GainState) (buffer : List Int) : Nat → Int
  | 0 => 0
  | k + 1 => if g.min ≥ g.max then group_value g buffer k else 0

/-- Number of complete groups of a block of `S` values: an eighth of the
`(S + 5) / 8` loop steps. -/
def group_count (S : Nat) : Nat := (S + 5) / 8 / 8

/-- The values `v_0, v_1, ...` of the complete groups of the block. -/
def group_values (g : GainState) (buffer : List Int) : List Int :=
  (List.range (group_count buffer.length)).map (group_value g buffer)

/-- The fold `if v < m then v` from `0xfffffff`, as the description states it. -/
def fold_min (vs : List Int) : Int := vs.foldl (fun m v => if v < m then v else m) 0xfffffff

/-- The fold `if v > m then v` from `-0xfffffff`, as the description states it. -/
def fold_max (vs : List Int) : Int := vs.foldl (fun m v => if v > m then v else m) (-0xfffffff)

/-- The fold of lines 88-89, where the assignment to the `int` `new_min`
converts the value. -/
def fold_min_int (vs : List Int) : Int :=
  vs.foldl (fun m v => if v < m then toInt32 v else m) 0xfffffff

/-- The fold of lines 90-91, where the assignment to the `int` `new_max`
converts the value. -/
def fold_max_int (vs : List Int) : Int :=
  vs.foldl (fun m v => if v > m then toInt32 v else m) (-0xfffffff)

/-- A raw block of 33 pairs whose pairs 1, 5, 9, ..., 29 (the ones the loop
reads) go round the corners `(a, a), (-a, a), (-a, -a), (a, -a)` of a square,
a quarter turn per loop step; pair 0 equals pair 1 and the other pairs are 0. -/
def block_rotating (a : Int) : List Int :=
  [a, a, a, a] ++ List.replicate 6 0 ++ [-a, a] ++ List.replicate 6 0 ++
  [-a, -a] ++ List.replicate 6 0 ++ [a, -a] ++ List.replicate 6 0 ++
  [a, a] ++ List.replicate 6 0 ++ [-a, a] ++ List.replicate 6 0 ++
  [-a, -a] ++ List.replicate 6 0 ++ [a, -a] ++ List.replicate 6 0

/-- The signal handler `terminate` (lines 128-131): whatever the signal, it
stores 0 in `app_running`. -/
def terminate (_signal : Int) (_app_running : Bool) : Bool := false

/-- Effect on `app_running` of the signals handled in some interval. -/
def deliver (signals : List Int) (app_running : Bool) : Bool :=
  signals.foldl (fun a sg => terminate sg a) app_running

/-- Control point of the `while` loop of `main`: at its head, or past it. -/
inductive LoopPc where
  | head
  | left
deriving DecidableEq, Repr

/-- State of the run loop: the global `app_running` (line 126, initially 1)
and the control point. -/
structure RunState where
  app_running : Bool
  pc : LoopPc
deriving DecidableEq, Repr

/-- What the surroundings do during one pass of the loop: the signals handled
before `app_running` is tested at the head, the signals handled while the body
runs, and the value `demodulate` returns. -/
structure Pass where
  signals_head : List Int
  signals_cycle : List Int
  demod_ret : Int
deriving DecidableEq, Repr

/-- The state in which the loop of `main` is entered. -/
def run_start : RunState := { app_running := true, pc := LoopPc.head }

/-- One pass of `while (app_running) { refill; if (demodulate) break; }`
(lines 214-218). -/
def pass_step (st : RunState) (p : Pass) : RunState × List Event :=
  match st.pc with
  | LoopPc.left => (st, [])
  | LoopPc.head =>
    let flag := deliver p.signals_head st.app_running
    if flag = true then
      ({ app_running := deliver p.signals_cycle flag,
         pc := if p.demod_ret ≠ 0 then LoopPc.left else LoopPc.head },
       [Event.refill, Event.demod p.demod_ret])
    else ({ app_running := flag, pc := LoopPc.left }, [])

/-- Successive passes. -/
def run_passes : RunState → List Pass → RunState × List Event
  | st, [] => (st, [])
  | st, p :: rest =>
    ((run_passes (pass_step st p).1 rest).1, (pass_step st p).2 ++ (run_passes (pass_step st p).1 rest).2)

/-- The values of `app_running` read at the head of the successive passes, and
the values `demodulate` returns: the description of the passes `run_loop`
works on. -/
def cycles_of : Bool → List Pass → List Cycle
  | _, [] => []
  | a, p :: rest =>
    { app_running := deliver p.signals_head a, demod_ret := p.demod_ret } ::
      cycles_of (deliver p.signals_cycle (deliver p.signals_head a)) rest

/-! ## Arithmetic and loop lemmas -/


theorem toInt16_of_bounds (v : Int) (h1 : -32768 ≤ v) (h2 : v ≤ 32767) : toInt16 v = v := by
  unfold toInt16
  omega

theorem normalize_bounds (g : GainState) (v : Int) :
    -8191 ≤ normalize g v ∧ normalize g v ≤ 8191 := by
  unfold normalize
  simp only []
  split_ifs <;> constructor <;> omega

theorem loop_inv {g : GainState} {buffer : List Int} {num_bytes : Nat}
    (P : Nat → LoopState → Prop)
    (hstep : ∀ j s i0 q0, j < num_bytes / 2 → buffer[j]? = some i0 →
      buffer[j + 1]? = some q0 → P j s → P (j + 2 * sub) (body g s i0 q0)) :
    ∀ fuel j s s1, loop g buffer num_bytes fuel j s = some s1 → P j s →
      ∃ j1, num_bytes / 2 ≤ j1 ∧ P j1 s1 := by
  intro fuel
  induction fuel with
  | zero =>
    intro j s s1 h
    simp [loop] at h
  | succ f ih =>
    intro j s s1 h hP
    rw [loop] at h
    split at h
    · rename_i hj
      split at h
      · rename_i i0 q0 hi hq
        exact ih _ _ _ h (hstep j s i0 q0 hj hi hq hP)
      · simp at h
    · rename_i hj
      simp only [Option.some.injEq] at h
      subst h
      exact ⟨j, by omega, hP⟩

theorem loop_total {g : GainState} {buffer : List Int} {num_bytes : Nat}
    (hnb : num_bytes = 2 * buffer.length) (heven : buffer.length % 2 = 0) :
    ∀ fuel j s, j % 2 = 0 → 0 < fuel → buffer.length + 8 ≤ j + 8 * fuel →
      ∃ s1, loop g buffer num_bytes fuel j s = some s1 := by
  intro fuel
  induction fuel with
  | zero => intro j s _ h; omega
  | succ f ih =>
    intro j s hj _ hf
    rw [loop]
    by_cases hlt : j < num_bytes / 2
    · have h1 : j < buffer.length := by omega
      have h2 : j + 1 < buffer.length := by omega
      simp only [hlt, if_true, List.getElem?_eq_getElem h1, List.getElem?_eq_getElem h2]
      apply ih
      · simp only [sub]; omega
      · omega
      · simp only [sub]; omega
    · simp only [hlt, if_false]
      exact ⟨s, rfl⟩

theorem demodulate_inv {g : GainState} {buffer : List Int} (pa_ret : Int)
    (hwf : wellFormed buffer) (P : Nat → LoopState → Prop)
    (hinit : ∀ b0 b1 b2 b3, buffer[0]? = some b0 → buffer[1]? = some b1 →
      buffer[2]? = some b2 → buffer[3]? = some b3 → P 2 (init b0 b1 b2 b3))
    (hstep : ∀ j s i0 q0, j < buffer.length → buffer[j]? = some i0 →
      buffer[j + 1]? = some q0 → P j s → P (j + 2 * sub) (body g s i0 q0)) :
    ∃ s j1, buffer.length ≤ j1 ∧ P j1 s ∧
      demodulate g buffer pa_ret = some (finish s pa_ret) := by
  obtain ⟨h4, heven⟩ := hwf
  have e0 : buffer[0]? = some buffer[0] := List.getElem?_eq_getElem (by omega)
  have e1 : buffer[1]? = some buffer[1] := List.getElem?_eq_getElem (by omega)
  have e2 : buffer[2]? = some buffer[2] := List.getElem?_eq_getElem (by omega)
  have e3 : buffer[3]? = some buffer[3] := List.getElem?_eq_getElem (by omega)
  have hhalf : bytes_used buffer / 2 = buffer.length := by
    unfold bytes_used; omega
  obtain ⟨s1, hs1⟩ := @loop_total g buffer (bytes_used buffer)
    rfl heven (bytes_used buffer / 2) 2 (init buffer[0] buffer[1] buffer[2] buffer[3])
    (by decide) (by omega) (by omega)
  have hstep1 : ∀ j s i0 q0, j < bytes_used buffer / 2 → buffer[j]? = some i0 →
      buffer[j + 1]? = some q0 → P j s → P (j + 2 * sub) (body g s i0 q0) := by
    intro j s i0 q0 hj
    exact hstep j s i0 q0 (by omega)
  obtain ⟨j1, hj1, hP1⟩ := loop_inv P hstep1 _ _ _ _ hs1 (hinit _ _ _ _ e0 e1 e2 e3)
  refine ⟨s1, j1, by omega, hP1, ?_⟩
  unfold demodulate
  simp only [e0, e1, e2, e3, hs1]

theorem finish_samples (s : LoopState) (pa_ret : Int) :
    (finish s pa_ret).samples = s.sample_buffer := by
  unfold finish
  simp only []
  split_ifs <;> rfl

theorem finish_divisors (s : LoopState) (pa_ret : Int) :
    (finish s pa_ret).divisors = s.divisors := by
  unfold finish
  simp only []
  split_ifs <;> rfl

theorem finish_gain (s : LoopState) (pa_ret : Int) :
    (finish s pa_ret).gain = { min := s.new_min, max := s.new_max } := by
  unfold finish
  simp only []
  split_ifs <;> rfl

/-- With a non-degenerate incoming gain state the loop emits one sample for
every eighth iteration, and it makes `(S + 5) / 8` iterations on `S` values. -/
theorem demodulate_length {g : GainState} {buffer : List Int} (pa_ret : Int)
    (hwf : wellFormed buffer) (hg : g.min < g.max) :
    ∃ r, demodulate g buffer pa_ret = some r ∧
      r.samples.length = (buffer.length + 5) / 8 / 8 := by
  obtain ⟨s, j1, hj1, hP, hd⟩ := demodulate_inv (g := g) pa_ret hwf
    (fun j s => j % 8 = 2 ∧ j < buffer.length + 8 ∧ s.x = 4 * (((j - 2) / 8) % 8) ∧
      s.sample_buffer.length = (j - 2) / 8 / 8)
    (by
      intro b0 b1 b2 b3 _ _ _ _
      refine ⟨by omega, by omega, ?_, ?_⟩ <;> simp [init])
    (by
      intro j s i0 q0 hj _ _ hP
      obtain ⟨h1, h2, h3, h4⟩ := hP
      have hng : ¬ g.min ≥ g.max := by omega
      simp only [body, sub, hng, if_false]
      by_cases hx : s.x + 4 = 32
      · simp only [hx, if_true, List.length_append, List.length_singleton]
        omega
      · simp only [hx, if_false]
        omega)
  refine ⟨finish s pa_ret, hd, ?_⟩
  rw [finish_samples]
  obtain ⟨h1, h2, _, h4⟩ := hP
  rw [h4]
  omega
theorem normalize_fits (g : GainState) (v : Int) : toInt16 (normalize g v) = normalize g v := by
  have h := normalize_bounds g v
  exact toInt16_of_bounds _ (by omega) (by omega)

theorem run_loop_events :
    ∀ (cycles : List Cycle) (evs : List Event), run_loop cycles = some evs →
      ∀ e ∈ evs, (∀ r, e ≠ Event.acquire r) ∧ (∀ r, e ≠ Event.release r) := by
  intro cycles
  induction cycles with
  | nil => intro evs h; simp [run_loop] at h
  | cons c rest ih =>
    intro evs h e he
    rw [run_loop] at h
    split_ifs at h with h1 h2
    · simp only [Option.some.injEq] at h
      subst h
      simp only [List.mem_cons, List.mem_singleton] at he
      rcases he with he | he | he
      · subst he; simp
      · subst he; simp
      · simp at he
    · cases hr : run_loop rest with
      | none => simp [hr] at h
      | some evs1 =>
        simp only [hr, Option.some.injEq] at h
        subst h
        simp only [List.mem_cons] at he
        rcases he with he | he | he
        · subst he; simp
        · subst he; simp
        · exact ih evs1 hr e he
    · simp only [Option.some.injEq] at h
      subst h
      simp at he

/-- The loop of `main` goes on past the described passes exactly when every one
of them finds `app_running` set and gets 0 from `demodulate`. -/
theorem run_loop_none_iff :
    ∀ cycles : List Cycle,
      run_loop cycles = none ↔ ∀ c ∈ cycles, c.app_running = true ∧ c.demod_ret = 0 := by
  intro cycles
  induction cycles with
  | nil => simp [run_loop]
  | cons c rest ih =>
    rw [run_loop]
    by_cases h1 : c.app_running = true
    · by_cases h2 : c.demod_ret = 0
      · cases hr : run_loop rest with
        | none =>
          have hall := ih.mp hr
          simp only [h1, h2, if_true, ne_eq, not_true_eq_false, if_false, List.mem_cons,
            forall_eq_or_imp, and_self, true_and, true_iff]
          exact hall
        | some evs =>
          have hnot : ¬ ∀ c ∈ rest, c.app_running = true ∧ c.demod_ret = 0 := by
            intro hall
            rw [ih.mpr hall] at hr
            exact Option.noConfusion hr
          simp only [h1, h2, if_true, ne_eq, not_true_eq_false, if_false, List.mem_cons,
            forall_eq_or_imp, and_self, true_and]
          constructor
          · intro h
            exact Option.noConfusion h
          · intro hall
            exact absurd hall hnot
      · simp [h1, h2]
    · simp [h1]

/-! ## The claims -/

set_option maxRecDepth 100000

/-- C1 (code defect).  The claim asks for the midpoint `(min + max) / 2` to be
subtracted; line 96 subtracts `(max - min) / 2`.  On the block `block_one_group`
(demodulated value 8, as the outgoing gain state shows) with incoming
`min = 4`, `max = 12` the code emits 4095, where the claimed formula gives 0. -/
theorem C1_offset_is_half_range_not_midpoint :
    demodulate { min := 4, max := 12 } block_one_group 0 =
      some { gain := { min := 8, max := 8 }, samples := [4095], divisors := [8],
             writes := [([4095], 2)], ret := 0 } ∧
    normalize_midpoint { min := 4, max := 12 } 8 = 0 := by
  constructor <;> decide

/-- C3 (code defect).  With a degenerate incoming gain state the `continue` on
line 94 skips the reset `sample = 0` of line 105, so the quotient of one group
is carried into the next.  On `block_two_groups`, whose groups sum to 64 and 0
(values 8 and 0), the first cycle (sentinels) leaves `min = 1`, `max = 8`, while
a cycle entered with `min = 0`, `max = 2` leaves `min = 0`, `max = 8`: the
outgoing gain state depends on the incoming one. -/
theorem C3_gain_update_carries_accumulator :
    demodulate initialGain block_two_groups 0 =
      some { gain := { min := 1, max := 8 }, samples := [], divisors := [],
             writes := [], ret := 0 } ∧
    demodulate { min := 0, max := 2 } block_two_groups 0 =
      some { gain := { min := 0, max := 8 }, samples := [8191, -4095], divisors := [2, 2],
             writes := [([8191, -4095], 4)], ret := 0 } := by
  constructor <;> decide

/-- C4.  With `min < max` the cycle emits one sample for every eight loop
iterations, and every sample it emits is a clipped value `normalize g v`, lies
in `[-8191, 8191]`, and is unchanged by the conversion to the 16-bit slot it is
stored in. -/
theorem C4_samples_clamped (g : GainState) (buffer : List Int) (pa_ret : Int)
    (hwf : wellFormed buffer) (hg : g.min < g.max) :
    ∃ r, demodulate g buffer pa_ret = some r ∧
      r.samples.length = (buffer.length + 5) / 8 / 8 ∧
      ∀ y ∈ r.samples, -8191 ≤ y ∧ y ≤ 8191 ∧ isInt16 y ∧
        ∃ v, normalize g v = y ∧ toInt16 (normalize g v) = y := by
  obtain ⟨r1, hr1, hlen⟩ := demodulate_length (g := g) pa_ret hwf hg
  obtain ⟨s, j1, _, hP, hd⟩ := demodulate_inv (g := g) pa_ret hwf
    (fun _ s => ∀ y ∈ s.sample_buffer, -8191 ≤ y ∧ y ≤ 8191 ∧ isInt16 y ∧
        ∃ v, normalize g v = y ∧ toInt16 (normalize g v) = y)
    (by
      intro b0 b1 b2 b3 _ _ _ _
      simp [init])
    (by
      intro j s i0 q0 _ _ _ hP
      simp only [body]
      split_ifs
      all_goals first
        | exact hP
        | intro y hy
          simp only [List.mem_append, List.mem_singleton] at hy
          rcases hy with hy | hy
          · exact hP y hy
          · subst hy
            rw [normalize_fits]
            have hb := normalize_bounds g
              (cdiv (s.sample + (s.i1 * (q0 - s.q2) - s.q1 * (i0 - s.i2))) ((32 / sub : Nat) : Int))
            refine ⟨hb.1, hb.2, ⟨by omega, by omega⟩, _, rfl, normalize_fits _ _⟩)
  have hsame : r1 = finish s pa_ret := by
    rw [hr1] at hd
    exact Option.some.inj hd
  refine ⟨finish s pa_ret, hd, ?_, ?_⟩
  · rw [← hsame]
    exact hlen
  · rw [finish_samples]
    exact hP

/-- Witness of C4: a one-group block under the narrow range `min = 0`, `max = 1`. -/
theorem C4_samples_clamped_witness :
    wellFormed block_one_group ∧ (0 : Int) < 1 ∧
    ∃ r, demodulate { min := 0, max := 1 } block_one_group 0 = some r ∧
      r.samples.length = (block_one_group.length + 5) / 8 / 8 ∧
      ∀ y ∈ r.samples, -8191 ≤ y ∧ y ≤ 8191 ∧ isInt16 y ∧
        ∃ v, normalize { min := 0, max := 1 } v = y ∧
          toInt16 (normalize { min := 0, max := 1 } v) = y :=
  ⟨by decide, by decide,
    C4_samples_clamped { min := 0, max := 1 } block_one_group 0 (by decide) (by decide)⟩

/-- C5, counterexample.  The all-zero block of 32 pairs under the non-degenerate
gain state `min = 0`, `max = 200` yields the sample -4095, not 0. -/
theorem C5_counterexample :
    demodulate { min := 0, max := 200 } (List.replicate 64 0) 0 =
      some { gain := { min := 0, max := 0 }, samples := [-4095], divisors := [200],
             writes := [([-4095], 2)], ret := 0 } := by
  decide

/-- C5, amended.  On an all-zero block with `min < max` every emitted sample is
one and the same value, the image `normalize g 0` of the demodulated value 0
under the incoming gain state; it lies in `[-8191, 8191]`, and there is one
such sample for every eight loop iterations. -/
theorem C5_silence_gives_constant_block (n : Nat) (g : GainState) (pa_ret : Int)
    (hwf : wellFormed (List.replicate n 0)) (hg : g.min < g.max) :
    ∃ r, demodulate g (List.replicate n 0) pa_ret = some r ∧
      r.samples = List.replicate ((n + 5) / 8 / 8) (normalize g 0) ∧
      -8191 ≤ normalize g 0 ∧ normalize g 0 ≤ 8191 := by
  have hread : ∀ (k : Nat) (v : Int), (List.replicate n (0 : Int))[k]? = some v → v = 0 := by
    intro k v h
    exact List.eq_of_mem_replicate (List.getElem?_mem h)
  obtain ⟨s, j1, hj1, hP, hd⟩ := demodulate_inv (g := g) pa_ret hwf
    (fun j s => j % 8 = 2 ∧ j < n + 8 ∧ s.x = 4 * (((j - 2) / 8) % 8) ∧
      s.i1 = 0 ∧ s.q1 = 0 ∧ s.i2 = 0 ∧ s.q2 = 0 ∧ s.sample = 0 ∧
      s.sample_buffer = List.replicate ((j - 2) / 8 / 8) (normalize g 0))
    (by
      intro b0 b1 b2 b3 h0 h1 h2 h3
      have e0 := hread _ _ h0
      have e1 := hread _ _ h1
      have e2 := hread _ _ h2
      have e3 := hread _ _ h3
      subst e0 e1 e2 e3
      refine ⟨by omega, by omega, ?_, ?_⟩ <;> simp [init])
    (by
      intro j s i0 q0 hj hi hq hP
      obtain ⟨h1, h2, h3, h4, h5, h6, h7, h8, h9⟩ := hP
      have ei := hread _ _ hi
      have eq := hread _ _ hq
      subst ei eq
      have hng : ¬ g.min ≥ g.max := by omega
      have hlen : (List.replicate n (0 : Int)).length = n := List.length_replicate _ _
      have hz : cdiv 0 ((32 / 4 : Nat) : Int) = 0 := by decide
      simp only [body, sub, hng, if_false, h4, h5, h6, h7, h8, sub_self, mul_zero,
        add_zero, hz]
      by_cases hx : s.x + 4 = 32
      · simp only [hx, if_true, h9, normalize_fits]
        have hk : (j + 2 * 4 - 2) / 8 / 8 = (j - 2) / 8 / 8 + 1 := by omega
        rw [hk, List.replicate_succ']
        refine ⟨by omega, by omega, by omega, ?_⟩
        simp
      · simp only [hx, if_false, h9]
        have hk : (j + 2 * 4 - 2) / 8 / 8 = (j - 2) / 8 / 8 := by omega
        rw [hk]
        refine ⟨by omega, by omega, by omega, ?_⟩
        simp)
  have hb := normalize_bounds g 0
  refine ⟨finish s pa_ret, hd, ?_, hb.1, hb.2⟩
  rw [finish_samples]
  obtain ⟨h1, h2, _, _, _, _, _, _, h9⟩ := hP
  have hlen : (List.replicate n (0 : Int)).length = n := List.length_replicate _ _
  have hk : (j1 - 2) / 8 / 8 = (n + 5) / 8 / 8 := by omega
  rw [h9, hk]

/-- Witness of C5 (amended): the all-zero block of 64 pairs, `min = -100`, `max = 100`. -/
theorem C5_silence_gives_constant_block_witness :
    wellFormed (List.replicate 128 0) ∧ (-100 : Int) < 100 ∧
    ∃ r, demodulate { min := -100, max := 100 } (List.replicate 128 0) 0 = some r ∧
      r.samples = List.replicate ((128 + 5) / 8 / 8) (normalize { min := -100, max := 100 } 0) ∧
      -8191 ≤ normalize { min := -100, max := 100 } 0 ∧
      normalize { min := -100, max := 100 } 0 ≤ 8191 :=
  ⟨by decide, by decide,
    C5_silence_gives_constant_block 128 { min := -100, max := 100 } 0 (by decide) (by decide)⟩

/-- C6, counterexample.  A block of exactly `2 * sub * 32 + 2 = 258` values
under `min = 0`, `max = 2` yields four samples, not one. -/
theorem C6_counterexample :
    2 * sub * 32 + 2 = 258 ∧
    demodulate { min := 0, max := 2 } (List.replicate 258 0) 0 =
      some { gain := { min := 0, max := 0 }, samples := [-4095, -4095, -4095, -4095],
             divisors := [2, 2, 2, 2],
             writes := [([-4095, -4095, -4095, -4095], 8)], ret := 0 } := by
  constructor <;> decide

/-- C6, amended.  Every block of exactly `2 * sub * 32 + 2 = 258` values yields,
with `min < max`, an output block of length exactly 4: the 32 loop iterations
complete four groups of eight. -/
theorem C6_block_of_258_values_gives_four (g : GainState) (buffer : List Int) (pa_ret : Int)
    (hlen : buffer.length = 2 * sub * 32 + 2) (hg : g.min < g.max) :
    ∃ r, demodulate g buffer pa_ret = some r ∧ r.samples.length = 4 := by
  have hl : buffer.length = 258 := by simpa [sub] using hlen
  have hwf : wellFormed buffer := by
    unfold wellFormed
    omega
  obtain ⟨r, hr, hn⟩ := demodulate_length (g := g) pa_ret hwf hg
  refine ⟨r, hr, ?_⟩
  rw [hn, hl]

/-- Witness of C6 (amended): the all-zero block of 258 values, `min = 0`, `max = 2`. -/
theorem C6_block_of_258_values_gives_four_witness :
    (List.replicate 258 (0 : Int)).length = 2 * sub * 32 + 2 ∧ (0 : Int) < 2 ∧
    ∃ r, demodulate { min := 0, max := 2 } (List.replicate 258 0) 0 = some r ∧
      r.samples.length = 4 :=
  ⟨by decide, by decide,
    C6_block_of_258_values_gives_four { min := 0, max := 2 } (List.replicate 258 0) 0
      (by decide) (by decide)⟩

/-- C7, counterexample.  A block of `P = 32` pairs under `min = 0`, `max = 2`
yields one sample, while `(P - 1) / 32 = 0`. -/
theorem C7_counterexample :
    (List.replicate 64 (0 : Int)).length = 2 * 32 ∧
    demodulate { min := 0, max := 2 } (List.replicate 64 0) 0 =
      some { gain := { min := 0, max := 0 }, samples := [-4095], divisors := [2],
             writes := [([-4095], 2)], ret := 0 } ∧
    (32 - 1) / 32 = 0 := by
  refine ⟨by decide, by decide, by decide⟩

/-- C7, amended.  On a block of `P >= 2` pairs with `min < max` the output has
length `(P + 2) / 32`: the loop makes one iteration for every four pairs after
the first, an incomplete trailing stride included, and emits once every eight
iterations.  A full block of `SAMPLES_COUNT = 16384` pairs yields 512 samples. -/
theorem C7_output_length (P : Nat) (g : GainState) (buffer : List Int) (pa_ret : Int)
    (hlen : buffer.length = 2 * P) (hP : 2 ≤ P) (hg : g.min < g.max) :
    ∃ r, demodulate g buffer pa_ret = some r ∧ r.samples.length = (P + 2) / 32 ∧
      (P = SAMPLES_COUNT → r.samples.length = 512) := by
  have hwf : wellFormed buffer := by
    unfold wellFormed
    omega
  obtain ⟨r, hr, hn⟩ := demodulate_length (g := g) pa_ret hwf hg
  refine ⟨r, hr, ?_, ?_⟩
  · rw [hn, hlen]
    omega
  · intro hfull
    unfold SAMPLES_COUNT at hfull
    rw [hn, hlen, hfull]

/-- Witness of C7 (amended): 33 pairs, `min = 4`, `max = 12`. -/
theorem C7_output_length_witness :
    block_one_group.length = 2 * 33 ∧ 2 ≤ 33 ∧ (4 : Int) < 12 ∧
    ∃ r, demodulate { min := 4, max := 12 } block_one_group 0 = some r ∧
      r.samples.length = (33 + 2) / 32 ∧ (33 = SAMPLES_COUNT → r.samples.length = 512) :=
  ⟨by decide, by decide, by decide,
    C7_output_length 33 { min := 4, max := 12 } block_one_group 0
      (by decide) (by decide) (by decide)⟩

/-- C8 (code defect).  A cycle whose sink write fails makes `demodulate` return
-1 and ends the loop, but `main` then falls through to `return EXIT_SUCCESS`
(line 225): with every setup step successful and the first write failing, the
exit status is 0. -/
theorem C8_write_failure_exits_with_success :
    demodulate { min := 0, max := 2 } (List.replicate 64 0) (-1) =
      some { gain := { min := 0, max := 0 }, samples := [-4095], divisors := [2],
             writes := [([-4095], 2)], ret := -1 } ∧
    main { ctx_ok := true, dev_ok := true, buf_ok := true, pa_ok := true,
           cycles := [{ app_running := true, demod_ret := -1 }] } =
      some ([Event.acquire Resource.context, Event.acquire Resource.buffer,
             Event.acquire Resource.sink, Event.refill, Event.demod (-1),
             Event.release Resource.sink, Event.release Resource.buffer,
             Event.release Resource.context], 0) := by
  constructor <;> decide

/-- C9.  In every cycle `pa_simple_write` is called exactly once, with the `n`
emitted samples and the byte count `2 * n`, when `n > 0`; when `n = 0` it is not
called, `demodulate` returns 0, and the run loop goes on to its next pass. -/
theorem C9_sink_write_iff_nonempty (g : GainState) (buffer : List Int) (pa_ret : Int)
    (hwf : wellFormed buffer) :
    ∃ r, demodulate g buffer pa_ret = some r ∧
      (r.samples ≠ [] → r.writes = [(r.samples, 2 * r.samples.length)]) ∧
      (r.samples = [] → r.writes = [] ∧ r.ret = 0 ∧
        ∀ rest, run_loop ({ app_running := true, demod_ret := r.ret } :: rest) =
          Option.map (fun evs => Event.refill :: Event.demod 0 :: evs) (run_loop rest)) := by
  obtain ⟨s, _, _, _, hd⟩ := demodulate_inv (g := g) pa_ret hwf (fun _ _ => True)
    (fun _ _ _ _ _ _ _ _ => trivial) (fun _ _ _ _ _ _ _ _ => trivial)
  refine ⟨finish s pa_ret, hd, ?_, ?_⟩
  · intro hne
    rw [finish_samples] at hne
    have hlen : s.sample_buffer.length ≠ 0 := by
      intro h0
      exact hne (List.length_eq_zero.mp h0)
    simp [finish, hlen]
  · intro he
    rw [finish_samples] at he
    have hfin : finish s pa_ret =
        { gain := { min := s.new_min, max := s.new_max }, samples := s.sample_buffer,
          divisors := s.divisors, writes := [], ret := 0 } := by
      simp [finish, he]
    rw [hfin]
    refine ⟨rfl, rfl, ?_⟩
    intro rest
    rw [run_loop]
    cases run_loop rest <;> simp

/-- Witness of C9: a one-group cycle that emits one sample. -/
theorem C9_sink_write_iff_nonempty_witness :
    wellFormed block_one_group ∧
    ∃ r, demodulate { min := 4, max := 12 } block_one_group 0 = some r ∧
      (r.samples ≠ [] → r.writes = [(r.samples, 2 * r.samples.length)]) ∧
      (r.samples = [] → r.writes = [] ∧ r.ret = 0 ∧
        ∀ rest, run_loop ({ app_running := true, demod_ret := r.ret } :: rest) =
          Option.map (fun evs => Event.refill :: Event.demod 0 :: evs) (run_loop rest)) :=
  ⟨by decide, C9_sink_write_iff_nonempty { min := 4, max := 12 } block_one_group 0 (by decide)⟩

/-- C10.  Whenever `main` ends, its events are the acquisitions of a list `rs`
of distinct resources (an initial part of context, buffer, sink), then loop
events that acquire or release nothing, then the releases of `rs` in reverse
order: what was acquired is released once, last acquired first, and nothing
else is released. -/
theorem C10_teardown_reverse_order (env : Env) (evs : List Event) (status : Int)
    (h : main env = some (evs, status)) :
    ∃ (rs : List Resource) (mid : List Event),
      evs = rs.map Event.acquire ++ mid ++ rs.reverse.map Event.release ∧
      rs.Nodup ∧ rs <+: [Resource.context, Resource.buffer, Resource.sink] ∧
      ∀ e ∈ mid, (∀ r, e ≠ Event.acquire r) ∧ (∀ r, e ≠ Event.release r) := by
  unfold main at h
  split_ifs at h with h1 h2 h3 h4
  · simp only [Option.some.injEq, Prod.mk.injEq] at h
    refine ⟨[], [], ?_, by decide, by decide, by simp⟩
    rw [← h.1]
    rfl
  · simp only [Option.some.injEq, Prod.mk.injEq] at h
    refine ⟨[Resource.context], [], ?_, by decide, by decide, by simp⟩
    rw [← h.1]
    rfl
  · simp only [Option.some.injEq, Prod.mk.injEq] at h
    refine ⟨[Resource.context], [], ?_, by decide, by decide, by simp⟩
    rw [← h.1]
    rfl
  · simp only [Option.some.injEq, Prod.mk.injEq] at h
    refine ⟨[Resource.context, Resource.buffer], [], ?_, by decide, by decide, by simp⟩
    rw [← h.1]
    rfl
  · cases hr : run_loop env.cycles with
    | none => simp [hr] at h
    | some evs1 =>
      simp only [hr, Option.some.injEq, Prod.mk.injEq] at h
      refine ⟨[Resource.context, Resource.buffer, Resource.sink], evs1, ?_, by decide,
        by decide, run_loop_events _ _ hr⟩
      rw [← h.1]
      rfl

/-- Witness of C10: a successful cycle followed by a failed write. -/
theorem C10_teardown_reverse_order_witness :
    main { ctx_ok := true, dev_ok := true, buf_ok := true, pa_ok := true,
           cycles := [{ app_running := true, demod_ret := 0 },
                      { app_running := true, demod_ret := -1 }] } =
      some ([Event.acquire Resource.context, Event.acquire Resource.buffer,
             Event.acquire Resource.sink, Event.refill, Event.demod 0,
             Event.refill, Event.demod (-1),
             Event.release Resource.sink, Event.release Resource.buffer,
             Event.release Resource.context], 0) ∧
    ∃ (rs : List Resource) (mid : List Event),
      [Event.acquire Resource.context, Event.acquire Resource.buffer,
        Event.acquire Resource.sink, Event.refill, Event.demod 0,
        Event.refill, Event.demod (-1),
        Event.release Resource.sink, Event.release Resource.buffer,
        Event.release Resource.context] =
        rs.map Event.acquire ++ mid ++ rs.reverse.map Event.release ∧
      rs.Nodup ∧ rs <+: [Resource.context, Resource.buffer, Resource.sink] ∧
      ∀ e ∈ mid, (∀ r, e ≠ Event.acquire r) ∧ (∀ r, e ≠ Event.release r) :=
  ⟨by decide,
    C10_teardown_reverse_order
      { ctx_ok := true, dev_ok := true, buf_ok := true, pa_ok := true,
        cycles := [{ app_running := true, demod_ret := 0 },
                   { app_running := true, demod_ret := -1 }] }
      [Event.acquire Resource.context, Event.acquire Resource.buffer,
        Event.acquire Resource.sink, Event.refill, Event.demod 0,
        Event.refill, Event.demod (-1),
        Event.release Resource.sink, Event.release Resource.buffer,
        Event.release Resource.context]
      0 (by decide)⟩

/-! ## Lemmas on the observed loop -/

theorem loop_observed_fst {g : GainState} {buffer : List Int} {num_bytes : Nat} :
    ∀ fuel j s o, Option.map Prod.fst (loop_observed g buffer num_bytes fuel j s o) =
      loop g buffer num_bytes fuel j s := by
  intro fuel
  induction fuel with
  | zero => intro j s o; rfl
  | succ f ih =>
    intro j s o
    rw [loop_observed, loop]
    by_cases hj : j < num_bytes / 2
    · simp only [hj, if_true]
      cases buffer[j]? with
      | none => rfl
      | some i0 =>
        cases buffer[j + 1]? with
        | none => rfl
        | some q0 => exact ih _ _ _
    · simp only [hj, if_false]
      rfl

/-- The observed run returns exactly what `demodulate` returns. -/
theorem demodulate_observed_fst (g : GainState) (buffer : List Int) (pa_ret : Int) :
    Option.map Prod.fst (demodulate_observed g buffer pa_ret) = demodulate g buffer pa_ret := by
  unfold demodulate_observed demodulate
  cases h0 : buffer[0]? with
  | none => rfl
  | some b0 =>
    cases h1 : buffer[1]? with
    | none => rfl
    | some b1 =>
      cases h2 : buffer[2]? with
      | none => rfl
      | some b2 =>
        cases h3 : buffer[3]? with
        | none => rfl
        | some b3 =>
          simp only []
          have h := @loop_observed_fst g buffer (bytes_used buffer) (bytes_used buffer / 2) 2
            (init b0 b1 b2 b3) observed_init
          cases hl : loop_observed g buffer (bytes_used buffer) (bytes_used buffer / 2) 2
              (init b0 b1 b2 b3) observed_init with
          | none =>
            rw [hl] at h
            simp only [Option.map_none'] at h
            rw [← h]
            rfl
          | some so =>
            rw [hl] at h
            simp only [Option.map_some'] at h
            rw [← h]
            rfl

theorem loop_observed_inv {g : GainState} {buffer : List Int} {num_bytes : Nat}
    (P : Nat → LoopState → Observed → Prop)
    (hstep : ∀ j s o i0 q0, j < num_bytes / 2 → buffer[j]? = some i0 →
      buffer[j + 1]? = some q0 → P j s o →
      P (j + 2 * sub) (body g s i0 q0) (observe g j s i0 q0 o)) :
    ∀ fuel j s o s1 o1, loop_observed g buffer num_bytes fuel j s o = some (s1, o1) → P j s o →
      ∃ j1, num_bytes / 2 ≤ j1 ∧ P j1 s1 o1 := by
  intro fuel
  induction fuel with
  | zero =>
    intro j s o s1 o1 h
    simp [loop_observed] at h
  | succ f ih =>
    intro j s o s1 o1 h hP
    rw [loop_observed] at h
    split at h
    · rename_i hj
      split at h
      · rename_i i0 q0 hi hq
        exact ih _ _ _ _ _ h (hstep j s o i0 q0 hj hi hq hP)
      · simp at h
    · rename_i hj
      simp only [Option.some.injEq, Prod.mk.injEq] at h
      obtain ⟨h1, h2⟩ := h
      subst h1 h2
      exact ⟨j, by omega, hP⟩

/-- On a block of whole pairs, at least two, the observed run returns, and
whatever holds on entry and is kept by every iteration holds at the end. -/
theorem demodulate_observed_inv {g : GainState} {buffer : List Int} (pa_ret : Int)
    (hwf : wellFormed buffer) (P : Nat → LoopState → Observed → Prop)
    (hinit : ∀ b0 b1 b2 b3, buffer[0]? = some b0 → buffer[1]? = some b1 →
      buffer[2]? = some b2 → buffer[3]? = some b3 → P 2 (init b0 b1 b2 b3) observed_init)
    (hstep : ∀ j s o i0 q0, j < buffer.length → buffer[j]? = some i0 →
      buffer[j + 1]? = some q0 → P j s o →
      P (j + 2 * sub) (body g s i0 q0) (observe g j s i0 q0 o)) :
    ∃ s o j1, buffer.length ≤ j1 ∧ P j1 s o ∧
      demodulate_observed g buffer pa_ret = some (finish s pa_ret, o) ∧
      demodulate g buffer pa_ret = some (finish s pa_ret) := by
  obtain ⟨h4, heven⟩ := hwf
  have e0 : buffer[0]? = some buffer[0] := List.getElem?_eq_getElem (by omega)
  have e1 : buffer[1]? = some buffer[1] := List.getElem?_eq_getElem (by omega)
  have e2 : buffer[2]? = some buffer[2] := List.getElem?_eq_getElem (by omega)
  have e3 : buffer[3]? = some buffer[3] := List.getElem?_eq_getElem (by omega)
  have hhalf : bytes_used buffer / 2 = buffer.length := by
    unfold bytes_used; omega
  obtain ⟨s1, hs1⟩ := @loop_total g buffer (bytes_used buffer)
    rfl heven (bytes_used buffer / 2) 2 (init buffer[0] buffer[1] buffer[2] buffer[3])
    (by decide) (by omega) (by omega)
  have hfst := @loop_observed_fst g buffer (bytes_used buffer) (bytes_used buffer / 2) 2
    (init buffer[0] buffer[1] buffer[2] buffer[3]) observed_init
  rw [hs1] at hfst
  cases hl : loop_observed g buffer (bytes_used buffer) (bytes_used buffer / 2) 2
      (init buffer[0] buffer[1] buffer[2] buffer[3]) observed_init with
  | none =>
    rw [hl] at hfst
    simp at hfst
  | some so =>
    obtain ⟨s2, o2⟩ := so
    rw [hl] at hfst
    simp only [Option.map_some', Option.some.injEq] at hfst
    subst hfst
    have hstep1 : ∀ j s o i0 q0, j < bytes_used buffer / 2 → buffer[j]? = some i0 →
        buffer[j + 1]? = some q0 → P j s o →
        P (j + 2 * sub) (body g s i0 q0) (observe g j s i0 q0 o) := by
      intro j s o i0 q0 hj
      exact hstep j s o i0 q0 (by omega)
    obtain ⟨j1, hj1, hP1⟩ := loop_observed_inv P hstep1 _ _ _ _ _ _ hl
      (hinit _ _ _ _ e0 e1 e2 e3)
    refine ⟨s2, o2, j1, by omega, hP1, ?_, ?_⟩
    · unfold demodulate_observed
      simp only [e0, e1, e2, e3, hl]
    · unfold demodulate
      simp only [e0, e1, e2, e3, hs1]

/-- Counts of one cycle on a block of `S` values: `(S + 5) / 8` iterations, one
tracked value for every eight of them, as many stores at the indices
`0, 1, ...` when `min < max` and none when `min >= max`; every index read lies
in the block and is 0, 1 or `j`, `j + 1` for a `j` that is 2 modulo 8. -/
theorem observed_counts {g : GainState} {buffer : List Int} (pa_ret : Int)
    (hwf : wellFormed buffer) :
    ∃ r o, demodulate_observed g buffer pa_ret = some (r, o) ∧
      demodulate g buffer pa_ret = some r ∧
      o.steps = (buffer.length + 5) / 8 ∧
      o.tracked.length = (buffer.length + 5) / 8 / 8 ∧
      (g.min < g.max → r.samples.length = (buffer.length + 5) / 8 / 8 ∧
        o.stores = List.range ((buffer.length + 5) / 8 / 8)) ∧
      (g.min ≥ g.max → r.samples = [] ∧ o.stores = []) ∧
      (∀ k ∈ o.reads, k < buffer.length ∧ (k < 2 ∨ k % 8 = 2 ∨ k % 8 = 3)) := by
  obtain ⟨s, o, j1, hj1, hP, hd, hd1⟩ := demodulate_observed_inv (g := g) pa_ret hwf
    (fun j s o => ∃ t, j = 2 + 8 * t ∧ j < buffer.length + 8 ∧ o.steps = t ∧
      s.x = 4 * (t % 8) ∧ o.tracked.length = t / 8 ∧
      (g.min < g.max → s.sample_buffer.length = t / 8 ∧ o.stores = List.range (t / 8)) ∧
      (g.min ≥ g.max → s.sample_buffer = [] ∧ o.stores = []) ∧
      (∀ k ∈ o.reads, k < buffer.length ∧ (k < 2 ∨ k % 8 = 2 ∨ k % 8 = 3)))
    (by
      intro b0 b1 b2 b3 _ _ _ _
      have h4 := hwf.1
      refine ⟨0, rfl, by omega, rfl, rfl, rfl, ?_, ?_, ?_⟩
      · intro _; exact ⟨rfl, rfl⟩
      · intro _; exact ⟨rfl, rfl⟩
      · intro k hk
        simp only [observed_init, List.mem_cons, List.mem_singleton, List.not_mem_nil,
          or_false] at hk
        omega)
    (by
      intro j s o i0 q0 hj _ _ hP
      obtain ⟨t, h1, h2, h3, h4, h5, h6, h7, h8⟩ := hP
      have heven := hwf.2
      have hreads : ∀ k ∈ o.reads ++ [j, j + 1],
          k < buffer.length ∧ (k < 2 ∨ k % 8 = 2 ∨ k % 8 = 3) := by
        intro k hk
        simp only [List.mem_append, List.mem_cons, List.mem_singleton, List.not_mem_nil,
          or_false] at hk
        rcases hk with hk | hk | hk
        · exact h8 k hk
        · omega
        · omega
      refine ⟨t + 1, by simp only [sub]; omega, by simp only [sub]; omega, ?_⟩
      by_cases hx : s.x + 4 = 32
      · have hk : (t + 1) / 8 = t / 8 + 1 := by omega
        by_cases hdeg : g.min ≥ g.max
        · have hng : ¬ g.min < g.max := by omega
          simp only [body, observe, sub, hx, if_true, hdeg]
          refine ⟨by omega, by omega, ?_, ?_, ?_, hreads⟩
          · simp only [List.length_append, List.length_singleton]; omega
          · intro h; exact absurd h hng
          · intro _; exact h7 hdeg
        · have hlt : g.min < g.max := by omega
          simp only [body, observe, sub, hx, if_true, hdeg, if_false]
          obtain ⟨h6a, h6b⟩ := h6 hlt
          refine ⟨by omega, by omega, ?_, ?_, ?_, hreads⟩
          · simp only [List.length_append, List.length_singleton]; omega
          · intro _
            refine ⟨?_, ?_⟩
            · simp only [List.length_append, List.length_singleton]; omega
            · rw [hk, List.range_succ, h6b, h6a]
          · intro h; exact False.elim h
      · have hk : (t + 1) / 8 = t / 8 := by omega
        simp only [body, observe, sub, hx, if_false]
        refine ⟨by omega, by omega, by omega, ?_, ?_, hreads⟩
        · intro h; rw [hk]; exact h6 h
        · intro h; exact h7 h)
  obtain ⟨t, h1, h2, h3, h4, h5, h6, h7, h8⟩ := hP
  have ht : t = (buffer.length + 5) / 8 := by omega
  refine ⟨finish s pa_ret, o, hd, hd1, by omega, by omega, ?_, ?_, h8⟩
  · intro h
    rw [finish_samples, ← ht]
    exact h6 h
  · intro h
    rw [finish_samples]
    exact h7 h

/-! ## Bounds -/

theorem cdiv_nonneg_eq (a b : Int) (ha : 0 ≤ a) (hb : 0 ≤ b) : cdiv a b = a / b := by
  unfold cdiv
  exact Int.tdiv_eq_ediv ha hb

theorem cdiv_neg_eq (a b : Int) (ha : a ≤ 0) (hb : 0 ≤ b) : cdiv a b = -((-a) / b) := by
  unfold cdiv
  have h : (-(-a)).tdiv b = -((-a).tdiv b) := Int.neg_tdiv (-a) b
  rw [neg_neg] at h
  rw [h, Int.tdiv_eq_ediv (by omega) hb]

/-- Division by 8 with truncation toward zero, in terms of the floor division. -/
theorem cdiv_eight (a : Int) : cdiv a 8 = if 0 ≤ a then a / 8 else -((-a) / 8) := by
  split_ifs with h
  · exact cdiv_nonneg_eq a 8 h (by decide)
  · exact cdiv_neg_eq a 8 (by omega) (by decide)

/-- A truncated quotient by a positive divisor lies between 0 and the dividend. -/
theorem cdiv_between (a b : Int) (hb : 0 < b) :
    (0 ≤ a → 0 ≤ cdiv a b ∧ cdiv a b ≤ a) ∧ (a ≤ 0 → a ≤ cdiv a b ∧ cdiv a b ≤ 0) := by
  constructor
  · intro ha
    rw [cdiv_nonneg_eq a b ha (by omega)]
    exact ⟨Int.ediv_nonneg ha (by omega), Int.ediv_le_self b ha⟩
  · intro ha
    rw [cdiv_neg_eq a b ha (by omega)]
    have h1 : 0 ≤ (-a) / b := Int.ediv_nonneg (by omega) (by omega)
    have h2 : (-a) / b ≤ -a := Int.ediv_le_self b (by omega)
    exact ⟨by omega, by omega⟩

theorem mul_between (a b A B : Int) (ha : -A ≤ a ∧ a ≤ A) (hb : -B ≤ b ∧ b ≤ B) :
    -(A * B) ≤ a * b ∧ a * b ≤ A * B := by
  have h1 : |a| ≤ A := abs_le.mpr ha
  have h2 : |b| ≤ B := abs_le.mpr hb
  have h3 : |a * b| ≤ A * B := by
    rw [abs_mul]
    exact mul_le_mul h1 h2 (abs_nonneg _) (le_trans (abs_nonneg _) h1)
  exact abs_le.mp h3

/-- Range of the 12-bit converter of the front end. -/
theorem cross_bound_12 (i1 q1 i2 q2 i0 q0 : Int)
    (h1 : -2048 ≤ i1 ∧ i1 ≤ 2047) (h2 : -2048 ≤ q1 ∧ q1 ≤ 2047)
    (h3 : -2048 ≤ i2 ∧ i2 ≤ 2047) (h4 : -2048 ≤ q2 ∧ q2 ≤ 2047)
    (h5 : -2048 ≤ i0 ∧ i0 ≤ 2047) (h6 : -2048 ≤ q0 ∧ q0 ≤ 2047) :
    -16773120 ≤ i1 * (q0 - q2) - q1 * (i0 - i2) ∧
      i1 * (q0 - q2) - q1 * (i0 - i2) ≤ 16773120 := by
  have ha := mul_between i1 (q0 - q2) 2048 4095 ⟨by omega, by omega⟩ ⟨by omega, by omega⟩
  have hb := mul_between q1 (i0 - i2) 2048 4095 ⟨by omega, by omega⟩ ⟨by omega, by omega⟩
  constructor <;> omega

theorem toInt32_of_bounds (v : Int) (h1 : -2147483648 ≤ v) (h2 : v ≤ 2147483647) :
    toInt32 v = v := by
  unfold toInt32
  omega

/-- Update of a running minimum and maximum by one more value. -/
theorem track_update (vs : List Int) (m M v : Int)
    (h : (vs = [] ∧ m = 0xfffffff ∧ M = -0xfffffff) ∨
      (vs ≠ [] ∧ m ∈ vs ∧ M ∈ vs ∧ ∀ u ∈ vs, m ≤ u ∧ u ≤ M))
    (hv : -0xfffffff < v ∧ v < 0xfffffff) :
    (if v < m then v else m) ∈ vs ++ [v] ∧ (if v > M then v else M) ∈ vs ++ [v] ∧
      ∀ u ∈ vs ++ [v], (if v < m then v else m) ≤ u ∧ u ≤ (if v > M then v else M) := by
  rcases h with ⟨he, hm, hM⟩ | ⟨_, hm, hM, hall⟩
  · subst he hm hM
    have c1 : v < 0xfffffff := hv.2
    have c2 : v > -0xfffffff := hv.1
    simp only [c1, c2, if_true, List.nil_append, List.mem_singleton, true_and]
    intro u hu
    subst hu
    exact ⟨le_refl _, le_refl _⟩
  · refine ⟨?_, ?_, ?_⟩
    · split_ifs
      · simp
      · exact List.mem_append_left _ hm
    · split_ifs
      · simp
      · exact List.mem_append_left _ hM
    · intro u hu
      simp only [List.mem_append, List.mem_singleton] at hu
      rcases hu with hu | hu
      · have := hall u hu
        split_ifs <;> omega
      · subst hu
        split_ifs <;> omega

/-- On a block of 12-bit values every tracked value lies within 19169280 of 0,
and the outgoing gain state is the sentinel pair if no group was completed and
otherwise the least and the greatest tracked value. -/
theorem tracked_12bit {g : GainState} {buffer : List Int} (pa_ret : Int)
    (hwf : wellFormed buffer) (hbuf : ∀ v ∈ buffer, -2048 ≤ v ∧ v ≤ 2047) :
    ∃ r o, demodulate_observed g buffer pa_ret = some (r, o) ∧
      (∀ v ∈ o.tracked, -19169280 ≤ v ∧ v ≤ 19169280) ∧
      ((o.tracked = [] ∧ r.gain.min = 0xfffffff ∧ r.gain.max = -0xfffffff) ∨
        (o.tracked ≠ [] ∧ r.gain.min ∈ o.tracked ∧ r.gain.max ∈ o.tracked ∧
          ∀ v ∈ o.tracked, r.gain.min ≤ v ∧ v ≤ r.gain.max)) := by
  have h8 : ((32 / 4 : Nat) : Int) = 8 := by decide
  obtain ⟨s, o, j1, _, hP, hd, _⟩ := demodulate_observed_inv (g := g) pa_ret hwf
    (fun _ s o =>
      (-2048 ≤ s.i1 ∧ s.i1 ≤ 2047) ∧ (-2048 ≤ s.q1 ∧ s.q1 ≤ 2047) ∧
      (-2048 ≤ s.i2 ∧ s.i2 ≤ 2047) ∧ (-2048 ≤ s.q2 ∧ s.q2 ≤ 2047) ∧
      s.x % 4 = 0 ∧ s.x < 32 ∧
      (-(4 * 19169280 + (s.x : Int) * 16773120) ≤ 4 * s.sample ∧
        4 * s.sample ≤ 4 * 19169280 + (s.x : Int) * 16773120) ∧
      (∀ v ∈ o.tracked, -19169280 ≤ v ∧ v ≤ 19169280) ∧
      ((o.tracked = [] ∧ s.new_min = 0xfffffff ∧ s.new_max = -0xfffffff) ∨
        (o.tracked ≠ [] ∧ s.new_min ∈ o.tracked ∧ s.new_max ∈ o.tracked ∧
          ∀ v ∈ o.tracked, s.new_min ≤ v ∧ v ≤ s.new_max)))
    (by
      intro b0 b1 b2 b3 e0 e1 e2 e3
      have m0 := hbuf _ (List.getElem?_mem e0)
      have m1 := hbuf _ (List.getElem?_mem e1)
      have m2 := hbuf _ (List.getElem?_mem e2)
      have m3 := hbuf _ (List.getElem?_mem e3)
      refine ⟨m2, m3, m0, m1, ?_, ?_, ?_, ?_, Or.inl ⟨rfl, rfl, rfl⟩⟩ <;>
        simp [init, observed_init])
    (by
      intro j s o i0 q0 _ hi hq hP
      obtain ⟨a1, a2, a3, a4, a5, a6, a7, a8, a9⟩ := hP
      have mi := hbuf _ (List.getElem?_mem hi)
      have mq := hbuf _ (List.getElem?_mem hq)
      have hterm := cross_bound_12 s.i1 s.q1 s.i2 s.q2 i0 q0 a1 a2 a3 a4 mi mq
      by_cases hx : s.x + 4 = 32
      · have hv : -19169280 ≤ cdiv (s.sample + (s.i1 * (q0 - s.q2) - s.q1 * (i0 - s.i2))) 8 ∧
            cdiv (s.sample + (s.i1 * (q0 - s.q2) - s.q1 * (i0 - s.i2))) 8 ≤ 19169280 := by
          rw [cdiv_eight]
          split_ifs <;> constructor <;> omega
        have h32 := toInt32_of_bounds
          (cdiv (s.sample + (s.i1 * (q0 - s.q2) - s.q1 * (i0 - s.i2))) 8) (by omega) (by omega)
        simp only [body, observe, sub, hx, if_true, h8, h32]
        generalize cdiv (s.sample + (s.i1 * (q0 - s.q2) - s.q1 * (i0 - s.i2))) 8 = v at hv
        have hu := track_update o.tracked s.new_min s.new_max v a9 ⟨by omega, by omega⟩
        have hne : o.tracked ++ [v] ≠ [] := by simp
        have hall : ∀ u ∈ o.tracked ++ [v], -19169280 ≤ u ∧ u ≤ 19169280 := by
          intro u hu1
          simp only [List.mem_append, List.mem_singleton] at hu1
          rcases hu1 with hu1 | hu1
          · exact a8 u hu1
          · subst hu1; exact hv
        by_cases hdeg : g.min ≥ g.max
        · simp only [hdeg, if_true]
          refine ⟨mi, mq, a1, a2, trivial, by decide, ⟨?_, ?_⟩, hall,
            Or.inr ⟨hne, hu.1, hu.2.1, hu.2.2⟩⟩ <;> omega
        · simp only [hdeg, if_false]
          refine ⟨mi, mq, a1, a2, trivial, by decide, ⟨?_, ?_⟩, hall,
            Or.inr ⟨hne, hu.1, hu.2.1, hu.2.2⟩⟩ <;> omega
      · simp only [body, observe, sub, hx, if_false]
        refine ⟨mi, mq, a1, a2, by omega, by omega, ⟨?_, ?_⟩, a8, a9⟩
        · push_cast; omega
        · push_cast; omega)
  obtain ⟨_, _, _, _, _, _, _, a8, a9⟩ := hP
  refine ⟨finish s pa_ret, o, hd, a8, ?_⟩
  rw [finish_gain]
  exact a9

/-! ## The tracked values in closed form -/

theorem group_value_eq (g : GainState) (buffer : List Int) (k : Nat) :
    group_value g buffer k = cdiv (carry_in g buffer k + group_sum buffer k) 8 := by
  cases k with
  | zero => simp [group_value, carry_in]
  | succ k =>
    by_cases hdeg : g.min ≥ g.max
    · simp [group_value, carry_in, hdeg]
    · simp [group_value, carry_in, hdeg]

theorem fold_min_int_snoc (vs : List Int) (v : Int) :
    fold_min_int (vs ++ [v]) =
      if v < fold_min_int vs then toInt32 v else fold_min_int vs := by
  simp [fold_min_int, List.foldl_append]

theorem fold_max_int_snoc (vs : List Int) (v : Int) :
    fold_max_int (vs ++ [v]) =
      if v > fold_max_int vs then toInt32 v else fold_max_int vs := by
  simp [fold_max_int, List.foldl_append]

theorem foldl_agree (f1 f2 : Int → Int → Int) :
    ∀ (vs : List Int) (a : Int), (∀ m, ∀ v ∈ vs, f1 m v = f2 m v) →
      vs.foldl f1 a = vs.foldl f2 a := by
  intro vs
  induction vs with
  | nil => intro a _; rfl
  | cons v rest ih =>
    intro a h
    simp only [List.foldl_cons]
    rw [h a v (List.mem_cons_self _ _)]
    exact ih _ (fun m u hu => h m u (List.mem_cons_of_mem _ hu))

/-- When every value fits an `int`, the conversions of the folds change nothing. -/
theorem folds_int_eq (vs : List Int) (h : ∀ v ∈ vs, isInt32 v) :
    fold_min_int vs = fold_min vs ∧ fold_max_int vs = fold_max vs := by
  constructor
  · unfold fold_min_int fold_min
    apply foldl_agree
    intro m v hv
    rw [toInt32_of_bounds v (h v hv).1 (h v hv).2]
  · unfold fold_max_int fold_max
    apply foldl_agree
    intro m v hv
    rw [toInt32_of_bounds v (h v hv).1 (h v hv).2]

/-- The loop tracks exactly the values `v_0, v_1, ...` of the complete groups
and leaves their folds, with the conversion to `int`, in `min` and `max`. -/
theorem tracked_closed_form {g : GainState} {buffer : List Int} (pa_ret : Int)
    (hwf : wellFormed buffer) :
    ∃ r o, demodulate_observed g buffer pa_ret = some (r, o) ∧
      o.tracked = group_values g buffer ∧
      r.gain.min = fold_min_int (group_values g buffer) ∧
      r.gain.max = fold_max_int (group_values g buffer) := by
  have h8 : ((32 / 4 : Nat) : Int) = 8 := by decide
  obtain ⟨s, o, j1, hj1, hP, hd, _⟩ := demodulate_observed_inv (g := g) pa_ret hwf
    (fun j s o => ∃ t k r, t = 8 * k + r ∧ j = 2 + 8 * t ∧ j < buffer.length + 8 ∧ r < 8 ∧
      s.x = 4 * r ∧
      s.i1 = (pair_seq buffer (t + 1)).1 ∧ s.q1 = (pair_seq buffer (t + 1)).2 ∧
      s.i2 = (pair_seq buffer t).1 ∧ s.q2 = (pair_seq buffer t).2 ∧
      s.sample = carry_in g buffer k + group_sum_upto buffer k r ∧
      o.tracked = (List.range k).map (group_value g buffer) ∧
      s.new_min = fold_min_int o.tracked ∧ s.new_max = fold_max_int o.tracked)
    (by
      intro b0 b1 b2 b3 e0 e1 e2 e3
      have h4 := hwf.1
      have g0 : buffer.getD 0 0 = b0 := by simp [List.getD_eq_getElem?_getD, e0]
      have g1 : buffer.getD 1 0 = b1 := by simp [List.getD_eq_getElem?_getD, e1]
      have g2 : buffer.getD 2 0 = b2 := by simp [List.getD_eq_getElem?_getD, e2]
      have g3 : buffer.getD 3 0 = b3 := by simp [List.getD_eq_getElem?_getD, e3]
      refine ⟨0, 0, 0, rfl, rfl, by omega, by decide, rfl, ?_, ?_, ?_, ?_, ?_, rfl, rfl, rfl⟩
      · simp only [pair_seq, init, g2]
      · simp only [pair_seq, init, g3]
      · simp only [pair_seq, init, g0]
      · simp only [pair_seq, init, g1]
      · simp [init, carry_in, group_sum_upto])
    (by
      intro j s o i0 q0 hj hi hq hP
      obtain ⟨t, k, r, ht, hjt, hjS, hr, hx, c1, c2, c3, c4, hs, htr, hmin, hmax⟩ := hP
      have gi : (pair_seq buffer (t + 2)).1 = i0 := by
        simp only [pair_seq]
        rw [← hjt]
        simp [List.getD_eq_getElem?_getD, hi]
      have gq : (pair_seq buffer (t + 2)).2 = q0 := by
        simp only [pair_seq]
        rw [← hjt]
        simp [List.getD_eq_getElem?_getD, hq]
      have hsum : s.sample + (s.i1 * (q0 - s.q2) - s.q1 * (i0 - s.i2)) =
          carry_in g buffer k + group_sum_upto buffer k (r + 1) := by
        rw [hs, c1, c2, c3, c4, ← gi, ← gq]
        simp only [group_sum_upto, cross_term, ← ht]
        ring
      by_cases hx32 : s.x + 4 = 32
      · have hr7 : r = 7 := by omega
        subst hr7
        have hv : cdiv (s.sample + (s.i1 * (q0 - s.q2) - s.q1 * (i0 - s.i2))) 8 =
            group_value g buffer k := by
          rw [hsum, group_value_eq]
          rfl
        have htr1 : o.tracked ++ [group_value g buffer k] =
            (List.range (k + 1)).map (group_value g buffer) := by
          rw [List.range_succ, List.map_append, htr]
          rfl
        refine ⟨t + 1, k + 1, 0, by omega, by simp only [sub]; omega,
          by simp only [sub]; omega, by decide, ?_⟩
        by_cases hdeg : g.min ≥ g.max
        · simp only [body, observe, sub, hx32, if_true, h8, hv, hdeg]
          refine ⟨trivial, gi.symm, gq.symm, c1, c2, ?_, htr1, ?_, ?_⟩
          · simp [carry_in, hdeg, group_sum_upto]
          · rw [fold_min_int_snoc, hmin]
          · rw [fold_max_int_snoc, hmax]
        · simp only [body, observe, sub, hx32, if_true, h8, hv, hdeg, if_false]
          refine ⟨trivial, gi.symm, gq.symm, c1, c2, ?_, htr1, ?_, ?_⟩
          · simp [carry_in, hdeg, group_sum_upto]
          · rw [fold_min_int_snoc, hmin]
          · rw [fold_max_int_snoc, hmax]
      · simp only [body, observe, sub, hx32, if_false]
        exact ⟨t + 1, k, r + 1, by omega, by omega, by omega, by omega, by omega,
          gi.symm, gq.symm, c1, c2, hsum, htr, hmin, hmax⟩)
  obtain ⟨t, k, r, ht, hjt, hjS, hr, hx, c1, c2, c3, c4, hs, htr, hmin, hmax⟩ := hP
  have hk : k = group_count buffer.length := by
    unfold group_count
    omega
  have htr2 : o.tracked = group_values g buffer := by
    unfold group_values
    rw [htr, hk]
  refine ⟨finish s pa_ret, o, hd, htr2, ?_, ?_⟩
  · rw [finish_gain, ← htr2]
    exact hmin
  · rw [finish_gain, ← htr2]
    exact hmax

/-! ## The 64-bit range, unread values, constant blocks -/

theorem cross_bound_16 (i1 dq : Int) (h1 : isInt16 i1) (h2 : -65535 ≤ dq ∧ dq ≤ 65535) :
    -2147450880 ≤ i1 * dq ∧ i1 * dq ≤ 2147450880 := by
  unfold isInt16 at h1
  have ha := mul_between i1 dq 32768 65535 ⟨by omega, by omega⟩ h2
  constructor <;> omega

/-- A truncated quotient is no larger in absolute value than its dividend,
whatever the divisor. -/
theorem cdiv_within (a b : Int) :
    (0 ≤ a → -a ≤ cdiv a b ∧ cdiv a b ≤ a) ∧ (a ≤ 0 → a ≤ cdiv a b ∧ cdiv a b ≤ -a) := by
  have h : (cdiv a b).natAbs ≤ a.natAbs := by
    unfold cdiv
    rw [Int.natAbs_tdiv]
    exact Nat.div_le_self _ _
  constructor
  · intro ha
    constructor <;> omega
  · intro ha
    constructor <;> omega

/-- The `int` value of `max - min` is in the range of `int`. -/
theorem gain_range_int (g : GainState) : isInt32 (gain_range g) := by
  unfold gain_range toInt32 isInt32
  constructor <;> omega

/-- With `min < max`, both in the range of `int`, the `int` value of
`max - min` is not 0. -/
theorem gain_range_ne_zero (g : GainState) (hmin : isInt32 g.min) (hmax : isInt32 g.max)
    (hlt : g.min < g.max) : gain_range g ≠ 0 := by
  unfold isInt32 at hmin hmax
  unfold gain_range toInt32
  omega

/-- On a block of 16-bit values every value the arithmetic of the loop produces
fits 64 bits, whatever the `int` value of `max - min`. -/
theorem values_fit_64 {g : GainState} {buffer : List Int} (pa_ret : Int)
    (hwf : wellFormed buffer) (hbuf : ∀ v ∈ buffer, isInt16 v) :
    ∃ r o, demodulate_observed g buffer pa_ret = some (r, o) ∧
      ∀ v ∈ o.values, isInt64 v := by
  have h8 : ((32 / 4 : Nat) : Int) = 8 := by decide
  have hgr := gain_range_int g
  unfold isInt32 at hgr
  obtain ⟨s, o, j1, _, hP, hd, _⟩ := demodulate_observed_inv (g := g) pa_ret hwf
    (fun _ s o =>
      isInt16 s.i1 ∧ isInt16 s.q1 ∧ isInt16 s.i2 ∧ isInt16 s.q2 ∧
      s.x % 4 = 0 ∧ s.x < 32 ∧
      (-(4 * 8589803520 + (s.x : Int) * 4294901760) ≤ 4 * s.sample ∧
        4 * s.sample ≤ 4 * 8589803520 + (s.x : Int) * 4294901760) ∧
      (∀ v ∈ o.values, isInt64 v))
    (by
      intro b0 b1 b2 b3 e0 e1 e2 e3
      have m0 := hbuf _ (List.getElem?_mem e0)
      have m1 := hbuf _ (List.getElem?_mem e1)
      have m2 := hbuf _ (List.getElem?_mem e2)
      have m3 := hbuf _ (List.getElem?_mem e3)
      refine ⟨m2, m3, m0, m1, ?_, ?_, ?_, ?_⟩ <;> simp [init, observed_init])
    (by
      intro j s o i0 q0 _ hi hq hP
      obtain ⟨a1, a2, a3, a4, a5, a6, a7, a8⟩ := hP
      have mi := hbuf _ (List.getElem?_mem hi)
      have mq := hbuf _ (List.getElem?_mem hq)
      have b1 : -65535 ≤ q0 - s.q2 ∧ q0 - s.q2 ≤ 65535 := by
        unfold isInt16 at mq a4
        constructor <;> omega
      have b2 : -65535 ≤ i0 - s.i2 ∧ i0 - s.i2 ≤ 65535 := by
        unfold isInt16 at mi a3
        constructor <;> omega
      have hp1 := cross_bound_16 s.i1 (q0 - s.q2) a1 b1
      have hp2 := cross_bound_16 s.q1 (i0 - s.i2) a2 b2
      have hbase : ∀ v ∈ o.values ++ [s.i1 * (q0 - s.q2), s.q1 * (i0 - s.i2),
          s.i1 * (q0 - s.q2) - s.q1 * (i0 - s.i2),
          s.sample + (s.i1 * (q0 - s.q2) - s.q1 * (i0 - s.i2))], isInt64 v := by
        intro v hv
        simp only [List.mem_append, List.mem_cons, List.mem_singleton, List.not_mem_nil,
          or_false] at hv
        rcases hv with hv | hv | hv | hv | hv
        · exact a8 v hv
        all_goals
          subst hv
          unfold isInt64
          constructor <;> omega
      by_cases hx : s.x + 4 = 32
      · have hv : -8589803520 ≤ cdiv (s.sample + (s.i1 * (q0 - s.q2) - s.q1 * (i0 - s.i2))) 8 ∧
            cdiv (s.sample + (s.i1 * (q0 - s.q2) - s.q1 * (i0 - s.i2))) 8 ≤ 8589803520 := by
          rw [cdiv_eight]
          split_ifs <;> constructor <;> omega
        simp only [body, observe, sub, hx, if_true, h8]
        generalize cdiv (s.sample + (s.i1 * (q0 - s.q2) - s.q1 * (i0 - s.i2))) 8 = v8 at hv
        by_cases hdeg : g.min ≥ g.max
        · simp only [hdeg, if_true]
          refine ⟨mi, mq, a1, a2, trivial, by decide, ⟨by omega, by omega⟩, ?_⟩
          intro v hv1
          simp only [List.mem_append, List.mem_cons, List.mem_singleton, List.not_mem_nil,
            or_false] at hv1
          rcases hv1 with hv1 | hv1 | hv1 | hv1 | hv1 | hv1
          · exact a8 v hv1
          all_goals
            subst hv1
            unfold isInt64
            constructor <;> omega
        · simp only [hdeg, if_false]
          have hhalf := cdiv_between (gain_range g) 2 (by decide)
          have hhalf2 : -2147483648 ≤ cdiv (gain_range g) 2 ∧
              cdiv (gain_range g) 2 ≤ 2147483647 := by
            by_cases hs : 0 ≤ gain_range g
            · have := hhalf.1 hs
              constructor <;> omega
            · have := hhalf.2 (by omega)
              constructor <;> omega
          generalize cdiv (gain_range g) 2 = half at hhalf2
          have hq := cdiv_within ((v8 - half) * 8191) (gain_range g)
          have hq2 : -9223372036854775808 ≤ cdiv ((v8 - half) * 8191) (gain_range g) ∧
              cdiv ((v8 - half) * 8191) (gain_range g) ≤ 9223372036854775807 := by
            by_cases hs : 0 ≤ (v8 - half) * 8191
            · have := hq.1 hs
              constructor <;> omega
            · have := hq.2 (by omega)
              constructor <;> omega
          generalize cdiv ((v8 - half) * 8191) (gain_range g) = quot at hq2
          refine ⟨mi, mq, a1, a2, trivial, by decide, ⟨by omega, by omega⟩, ?_⟩
          intro v hv1
          simp only [List.mem_append, List.mem_cons, List.mem_singleton, List.not_mem_nil,
            or_false] at hv1
          rcases hv1 with hv1 | hv1 | hv1 | hv1 | hv1 | hv1 | hv1 | hv1 | hv1 | hv1 | hv1
          · exact a8 v hv1
          all_goals
            subst hv1
            unfold isInt64
            constructor <;> omega
      · simp only [body, observe, sub, hx, if_false]
        refine ⟨mi, mq, a1, a2, by omega, by omega, ⟨?_, ?_⟩, hbase⟩
        · push_cast; omega
        · push_cast; omega)
  exact ⟨finish s pa_ret, o, hd, hP.2.2.2.2.2.2.2⟩

/-- Every divisor of the normalisation is the `int` value of `max - min`, taken
with `min < max`; with `min >= max` nothing is stored and nothing is divided. -/
theorem divisors_are_gain_range {g : GainState} {buffer : List Int} (pa_ret : Int)
    (hwf : wellFormed buffer) :
    ∃ r, demodulate g buffer pa_ret = some r ∧
      (∀ d ∈ r.divisors, g.min < g.max ∧ d = gain_range g) ∧
      (g.min ≥ g.max → r.samples = [] ∧ r.divisors = []) := by
  obtain ⟨s, j1, _, hP, hd⟩ := demodulate_inv (g := g) pa_ret hwf
    (fun _ s => (∀ d ∈ s.divisors, g.min < g.max ∧ d = gain_range g) ∧
      (g.min ≥ g.max → s.sample_buffer = [] ∧ s.divisors = []))
    (by
      intro b0 b1 b2 b3 _ _ _ _
      simp [init])
    (by
      intro j s i0 q0 _ _ _ hP
      obtain ⟨h1, h2⟩ := hP
      by_cases hdeg : g.min ≥ g.max
      · simp only [body, hdeg, if_true]
        split_ifs <;> exact ⟨h1, fun _ => h2 hdeg⟩
      · simp only [body, hdeg, if_false]
        split_ifs
        all_goals
          refine ⟨?_, fun h => False.elim h⟩
          intro d hd1
          dsimp only at hd1
          first
            | exact h1 d hd1
            | simp only [List.mem_append, List.mem_singleton] at hd1
              rcases hd1 with hd1 | hd1
              · exact h1 d hd1
              · exact ⟨by omega, hd1⟩)
  refine ⟨finish s pa_ret, hd, ?_, ?_⟩
  · rw [finish_divisors]; exact hP.1
  · rw [finish_samples, finish_divisors]; exact hP.2

theorem loop_agree {g : GainState} {b1 b2 : List Int} {num_bytes : Nat}
    (hagree : ∀ k, k % 8 = 2 ∨ k % 8 = 3 → b1[k]? = b2[k]?) :
    ∀ fuel j s, j % 8 = 2 →
      loop g b1 num_bytes fuel j s = loop g b2 num_bytes fuel j s := by
  intro fuel
  induction fuel with
  | zero => intro j s _; rfl
  | succ f ih =>
    intro j s hj
    rw [loop, loop, hagree j (Or.inl hj), hagree (j + 1) (Or.inr (by omega))]
    by_cases hlt : j < num_bytes / 2
    · simp only [hlt, if_true]
      cases b2[j]? with
      | none => rfl
      | some i0 =>
        cases b2[j + 1]? with
        | none => rfl
        | some q0 => exact ih _ _ (by simp only [sub]; omega)
    · simp only [hlt, if_false]

/-- Two blocks of one length that agree on values 0, 1 and on the values
`j`, `j + 1` with `j` equal to 2 modulo 8 give the same result. -/
theorem demodulate_agree (g : GainState) (b1 b2 : List Int) (pa_ret : Int)
    (hlen : b1.length = b2.length)
    (hagree : ∀ k, k < b1.length → (k < 2 ∨ k % 8 = 2 ∨ k % 8 = 3) → b1[k]? = b2[k]?) :
    demodulate g b1 pa_ret = demodulate g b2 pa_ret := by
  have hall : ∀ k, (k < 2 ∨ k % 8 = 2 ∨ k % 8 = 3) → b1[k]? = b2[k]? := by
    intro k hk
    by_cases hlt : k < b1.length
    · exact hagree k hlt hk
    · rw [List.getElem?_eq_none (by omega), List.getElem?_eq_none (by omega)]
  have hb : bytes_used b1 = bytes_used b2 := by
    unfold bytes_used
    rw [hlen]
  unfold demodulate
  rw [hall 0 (by omega), hall 1 (by omega), hall 2 (by omega), hall 3 (by omega), hb]
  cases b2[0]? with
  | none => rfl
  | some c0 =>
    cases b2[1]? with
    | none => rfl
    | some c1 =>
      cases b2[2]? with
      | none => rfl
      | some c2 =>
        cases b2[3]? with
        | none => rfl
        | some c3 =>
          simp only []
          rw [loop_agree (fun k hk => hall k (Or.inr hk)) _ 2 _ (by decide)]

/-- With `min >= max` a cycle returns and emits nothing. -/
theorem degenerate_emits_nothing {g : GainState} {buffer : List Int} (pa_ret : Int)
    (hwf : wellFormed buffer) (hdeg : g.min ≥ g.max) :
    ∃ r, demodulate g buffer pa_ret = some r ∧ r.samples = [] := by
  obtain ⟨s, j1, _, hP, hd⟩ := demodulate_inv (g := g) pa_ret hwf
    (fun _ s => s.sample_buffer = [])
    (by
      intro b0 b1 b2 b3 _ _ _ _
      rfl)
    (by
      intro j s i0 q0 _ _ _ hP
      simp only [body, hdeg, if_true]
      split_ifs <;> exact hP)
  refine ⟨finish s pa_ret, hd, ?_⟩
  rw [finish_samples]
  exact hP

/-- A block whose I values are all `a` and whose Q values are all `b`, with at
least eight loop iterations, leaves `min = 0` and `max = 0`. -/
theorem constant_block_gain {g : GainState} {buffer : List Int} (a b : Int) (pa_ret : Int)
    (hwf : wellFormed buffer)
    (hconst : ∀ k, k < buffer.length → buffer[k]? = some (if k % 2 = 0 then a else b))
    (hgroup : 8 ≤ (buffer.length + 5) / 8) :
    ∃ r, demodulate g buffer pa_ret = some r ∧ r.gain = { min := 0, max := 0 } := by
  have hz : cdiv 0 ((32 / 4 : Nat) : Int) = 0 := by decide
  have ht0 : toInt32 0 = 0 := by decide
  have hz8 : cdiv 0 8 = 0 := by decide
  have hread : ∀ k v, buffer[k]? = some v → v = if k % 2 = 0 then a else b := by
    intro k v hk
    have hlt : k < buffer.length := by
      by_contra hge
      rw [List.getElem?_eq_none (by omega)] at hk
      exact Option.noConfusion hk
    rw [hconst k hlt] at hk
    exact (Option.some.inj hk).symm
  obtain ⟨s, j1, hj1, hP, hd⟩ := demodulate_inv (g := g) pa_ret hwf
    (fun j s => ∃ t, j = 2 + 8 * t ∧ j < buffer.length + 8 ∧ s.x = 4 * (t % 8) ∧
      s.i1 = a ∧ s.q1 = b ∧ s.i2 = a ∧ s.q2 = b ∧ s.sample = 0 ∧
      ((t / 8 = 0 ∧ s.new_min = 0xfffffff ∧ s.new_max = -0xfffffff) ∨
        (1 ≤ t / 8 ∧ s.new_min = 0 ∧ s.new_max = 0)))
    (by
      intro b0 b1 b2 b3 e0 e1 e2 e3
      have h0 := hread _ _ e0
      have h1 := hread _ _ e1
      have h2 := hread _ _ e2
      have h3 := hread _ _ e3
      simp only [Nat.zero_mod, if_true] at h0
      have h1b : b1 = b := by simpa using h1
      have h2b : b2 = a := by simpa using h2
      have h3b : b3 = b := by simpa using h3
      have h4 := hwf.1
      subst h0 h1b h2b h3b
      exact ⟨0, rfl, by omega, rfl, rfl, rfl, rfl, rfl, rfl, Or.inl ⟨rfl, rfl, rfl⟩⟩)
    (by
      intro j s i0 q0 hj hi hq hP
      obtain ⟨t, h1, h2, h3, c1, c2, c3, c4, c5, c6⟩ := hP
      have ei := hread _ _ hi
      have eq := hread _ _ hq
      have hj0 : j % 2 = 0 := by omega
      have hj1 : ¬ (j + 1) % 2 = 0 := by omega
      simp only [hj0, if_true] at ei
      simp only [hj1, if_false] at eq
      subst ei eq
      refine ⟨t + 1, by simp only [sub]; omega, by simp only [sub]; omega, ?_⟩
      by_cases hx : s.x + 4 = 32
      · have hk : 1 ≤ (t + 1) / 8 := by omega
        have hm0 : (4 : Nat) * ((t + 1) % 8) = 0 := by omega
        have hne : ¬ (t + 1) / 8 = 0 := by omega
        by_cases hdeg : g.min ≥ g.max
        · rcases c6 with ⟨_, hm, hM⟩ | ⟨_, hm, hM⟩ <;>
            simp [body, sub, hx, c1, c2, c3, c4, c5, hz, hz8, ht0, hm, hM, hdeg, hm0, hne, hk]
        · rcases c6 with ⟨_, hm, hM⟩ | ⟨_, hm, hM⟩ <;>
            simp [body, sub, hx, c1, c2, c3, c4, c5, hz, hz8, ht0, hm, hM, hdeg, hm0, hne, hk]
      · have hk : (t + 1) / 8 = t / 8 := by omega
        have hm0 : s.x + 4 = 4 * ((t + 1) % 8) := by omega
        simp only [body, sub, hx, if_false, c1, c2, c3, c4, c5, sub_self, mul_zero, add_zero]
        rw [hk]
        exact ⟨hm0, trivial, trivial, trivial, trivial, trivial, c6⟩)
  obtain ⟨t, h1, h2, _, _, _, _, _, _, c6⟩ := hP
  refine ⟨finish s pa_ret, hd, ?_⟩
  rw [finish_gain]
  rcases c6 with ⟨h0, _, _⟩ | ⟨_, hm, hM⟩
  · omega
  · rw [hm, hM]

/-! ## The run loop -/

theorem deliver_false (signals : List Int) : deliver signals false = false := by
  unfold deliver
  induction signals with
  | nil => rfl
  | cons sg rest ih => simpa [List.foldl_cons, terminate] using ih

/-- Once a signal has been handled, `app_running` reads 0. -/
theorem deliver_of_ne_nil (signals : List Int) (a : Bool) (h : signals ≠ []) :
    deliver signals a = false := by
  cases signals with
  | nil => exact absurd rfl h
  | cons sg rest =>
    have h1 := deliver_false rest
    unfold deliver at h1 ⊢
    simpa [List.foldl_cons, terminate] using h1

theorem run_passes_left (st : RunState) (ps : List Pass) (h : st.pc = LoopPc.left) :
    run_passes st ps = (st, []) := by
  induction ps with
  | nil => rfl
  | cons p rest ih =>
    have hstep : pass_step st p = (st, []) := by
      unfold pass_step
      rw [h]
    rw [run_passes, hstep]
    simp only [ih, List.append_nil]

/-- The loop of `main`, as `run_loop` describes it, is the iteration of
`pass_step` from the state in which the loop is entered. -/
theorem run_loop_cycles_of :
    ∀ (ps : List Pass) (a : Bool),
      run_loop (cycles_of a ps) =
        if (run_passes { app_running := a, pc := LoopPc.head } ps).1.pc = LoopPc.left
        then some (run_passes { app_running := a, pc := LoopPc.head } ps).2 else none := by
  intro ps
  induction ps with
  | nil =>
    intro a
    simp [cycles_of, run_loop, run_passes]
  | cons p rest ih =>
    intro a
    rw [cycles_of, run_loop, run_passes]
    by_cases hflag : deliver p.signals_head a = true
    · by_cases hret : p.demod_ret = 0
      · have hstep : pass_step { app_running := a, pc := LoopPc.head } p =
            ({ app_running := deliver p.signals_cycle (deliver p.signals_head a),
               pc := LoopPc.head }, [Event.refill, Event.demod p.demod_ret]) := by
          simp [pass_step, hflag, hret]
        rw [hstep]
        simp only [hflag, if_true, hret, ne_eq, not_true_eq_false, if_false]
        rw [ih]
        split_ifs <;> simp [hret]
      · have hstep : pass_step { app_running := a, pc := LoopPc.head } p =
            ({ app_running := deliver p.signals_cycle (deliver p.signals_head a),
               pc := LoopPc.left }, [Event.refill, Event.demod p.demod_ret]) := by
          simp [pass_step, hflag, hret]
        rw [hstep, run_passes_left _ rest rfl]
        simp [hflag, hret]
    · have hf : deliver p.signals_head a = false := by
        cases h : deliver p.signals_head a with
        | true => exact absurd h hflag
        | false => rfl
      have hstep : pass_step { app_running := a, pc := LoopPc.head } p =
          ({ app_running := false, pc := LoopPc.left }, []) := by
        simp [pass_step, hf]
      rw [hstep, run_passes_left _ rest rfl]
      simp [hf]

/-! ## The claims, continued -/

/-- C11.  In the loop of `main`, a pass issues events only when it starts at the
head of the loop with `app_running` read as set, and then it issues the whole
cycle, refill then `demodulate`, whatever signals arrive during it; a pass
that reads the flag as cleared or whose `demodulate` reports a failure leaves
the loop; once the loop is left no later pass issues anything; a signal
handled during a successful cycle lets that cycle end and makes the next pass
leave the loop without events.  `run_loop`, on which `main` is built, is this
step function iterated. -/
theorem C11_run_loop_guard :
    (∀ (st : RunState) (p : Pass), (pass_step st p).2 ≠ [] →
      st.pc = LoopPc.head ∧ deliver p.signals_head st.app_running = true ∧
      (pass_step st p).2 = [Event.refill, Event.demod p.demod_ret]) ∧
    (∀ (st : RunState) (p : Pass), st.pc = LoopPc.head →
      (deliver p.signals_head st.app_running = false ∨ p.demod_ret ≠ 0) →
      (pass_step st p).1.pc = LoopPc.left) ∧
    (∀ (st : RunState) (ps : List Pass), st.pc = LoopPc.left → run_passes st ps = (st, [])) ∧
    (∀ (st : RunState) (p p2 : Pass), st.pc = LoopPc.head →
      deliver p.signals_head st.app_running = true → p.signals_cycle ≠ [] →
      p.demod_ret = 0 →
      (pass_step st p).2 = [Event.refill, Event.demod 0] ∧
      pass_step (pass_step st p).1 p2 = ({ app_running := false, pc := LoopPc.left }, [])) ∧
    (∀ ps : List Pass, run_loop (cycles_of true ps) =
      if (run_passes run_start ps).1.pc = LoopPc.left
      then some (run_passes run_start ps).2 else none) := by
  refine ⟨?_, ?_, ?_, ?_, ?_⟩
  · intro st p h
    cases hpc : st.pc with
    | left =>
      exfalso
      apply h
      unfold pass_step
      rw [hpc]
    | head =>
      cases hflag : deliver p.signals_head st.app_running with
      | false =>
        exfalso
        apply h
        unfold pass_step
        rw [hpc]
        simp [hflag]
      | true =>
        refine ⟨rfl, rfl, ?_⟩
        unfold pass_step
        rw [hpc]
        simp [hflag]
  · intro st p hpc h
    unfold pass_step
    rw [hpc]
    rcases h with h | h
    · simp [h]
    · cases hflag : deliver p.signals_head st.app_running with
      | false => simp
      | true => simp [h]
  · intro st ps hpc
    exact run_passes_left st ps hpc
  · intro st p p2 hpc hflag hsig hret
    have hstep : pass_step st p =
        ({ app_running := false, pc := LoopPc.head }, [Event.refill, Event.demod 0]) := by
      unfold pass_step
      rw [hpc]
      simp [hflag, hret, deliver_of_ne_nil p.signals_cycle true hsig]
    rw [hstep]
    refine ⟨rfl, ?_⟩
    unfold pass_step
    simp [deliver_false]
  · intro ps
    exact run_loop_cycles_of ps true

/-- C12.  On every block of 16-bit values, with `min` and `max` in the range of
`int`, `demodulate` returns and every value of its arithmetic fits 64 bits: the
products `i[1]*dq` and `q[1]*di`, their difference, `sample` before and after
the division by 8 (with the value carried over when `min >= max`), and
`sample - (max - min) / 2`, `sample * 0x1fff` and the quotient by `max - min`,
where `max - min` is the `int` value, also when that subtraction overflows. -/
theorem C12_no_accumulator_overflow (g : GainState) (buffer : List Int) (pa_ret : Int)
    (hwf : wellFormed buffer) (hbuf : ∀ v ∈ buffer, isInt16 v)
    (hmin : isInt32 g.min) (hmax : isInt32 g.max) :
    ∃ r o, demodulate_observed g buffer pa_ret = some (r, o) ∧
      demodulate g buffer pa_ret = some r ∧ (∀ v ∈ o.values, isInt64 v) ∧
      (∀ d ∈ r.divisors, d ≠ 0) := by
  obtain ⟨r, o, hd, hv⟩ := values_fit_64 (g := g) pa_ret hwf hbuf
  have hdem : demodulate g buffer pa_ret = some r := by
    rw [← demodulate_observed_fst, hd]
    rfl
  obtain ⟨r1, hr1, hdiv, _⟩ := divisors_are_gain_range (g := g) pa_ret hwf
  rw [hdem] at hr1
  have hsame : r = r1 := Option.some.inj hr1
  subst hsame
  refine ⟨r, o, hd, hdem, hv, ?_⟩
  intro d hdm
  obtain ⟨hlt, he⟩ := hdiv d hdm
  rw [he]
  exact gain_range_ne_zero g hmin hmax hlt

/-- Witness of C12: a cycle on a block that swings over the whole 16-bit range,
entered with the gain state the first cycle on `block_swinging 22000` leaves,
for which `max - min` exceeds `INT_MAX`. -/
theorem C12_no_accumulator_overflow_witness :
    wellFormed (block_rotating 32767) ∧ (∀ v ∈ block_rotating 32767, isInt16 v) ∧
    isInt32 (-1497375000) ∧ isInt32 1573000000 ∧
    ∃ r o, demodulate_observed { min := -1497375000, max := 1573000000 }
        (block_rotating 32767) 0 = some (r, o) ∧
      demodulate { min := -1497375000, max := 1573000000 } (block_rotating 32767) 0 = some r ∧
      (∀ v ∈ o.values, isInt64 v) ∧ (∀ d ∈ r.divisors, d ≠ 0) :=
  ⟨by decide, by decide, by decide, by decide,
    C12_no_accumulator_overflow { min := -1497375000, max := 1573000000 }
      (block_rotating 32767) 0 (by decide) (by decide) (by decide) (by decide)⟩

/-- C13, counterexample.  On the first cycle, the block `block_rotating 16384`
of 16-bit values has the demodulated value 872415232, which is not below
`0xfffffff`; the sentinel stays in `min`. -/
theorem C13_counterexample :
    (∀ v ∈ block_rotating 16384, isInt16 v) ∧
    Option.map (fun ro => (ro.1.gain, ro.2.tracked))
        (demodulate_observed initialGain (block_rotating 16384) 0) =
      some ({ min := 0xfffffff, max := 872415232 }, [872415232]) ∧
    ¬ ((872415232 : Int) < 0xfffffff) := by
  refine ⟨by decide, by decide, by decide⟩

/-- C13, amended.  On every block of values in the 12-bit range
`[-2048, 2047]`, whatever the incoming gain state, every demodulated value lies
strictly between `-0xfffffff` and `0xfffffff`, and after a cycle that completes
at least one group `min` and `max` are the least and the greatest of the
values observed. -/
theorem C13_sentinels_bound_12bit_values (g : GainState) (buffer : List Int) (pa_ret : Int)
    (hwf : wellFormed buffer) (hbuf : ∀ v ∈ buffer, -2048 ≤ v ∧ v ≤ 2047) :
    ∃ r o, demodulate_observed g buffer pa_ret = some (r, o) ∧
      demodulate g buffer pa_ret = some r ∧
      (∀ v ∈ o.tracked, -0xfffffff < v ∧ v < 0xfffffff) ∧
      (8 ≤ (buffer.length + 5) / 8 →
        o.tracked ≠ [] ∧ r.gain.min ∈ o.tracked ∧ r.gain.max ∈ o.tracked ∧
        ∀ v ∈ o.tracked, r.gain.min ≤ v ∧ v ≤ r.gain.max) := by
  obtain ⟨r, o, hd, hb, hg⟩ := tracked_12bit (g := g) pa_ret hwf hbuf
  obtain ⟨r1, o1, hd1, _, _, hlen, _⟩ := observed_counts (g := g) pa_ret hwf
  rw [hd] at hd1
  simp only [Option.some.injEq, Prod.mk.injEq] at hd1
  obtain ⟨hr, ho⟩ := hd1
  subst hr ho
  refine ⟨r, o, hd, ?_, ?_, ?_⟩
  · rw [← demodulate_observed_fst, hd]
    rfl
  · intro v hv
    have := hb v hv
    constructor <;> omega
  · intro hgroup
    rcases hg with ⟨he, _, _⟩ | hne
    · rw [he] at hlen
      simp only [List.length_nil] at hlen
      omega
    · exact hne

/-- Witness of C13 (amended): the first cycle on a block that swings over the
12-bit range. -/
theorem C13_sentinels_bound_12bit_values_witness :
    wellFormed (block_rotating 2047) ∧ (∀ v ∈ block_rotating 2047, -2048 ≤ v ∧ v ≤ 2047) ∧
    ∃ r o, demodulate_observed initialGain (block_rotating 2047) 0 = some (r, o) ∧
      demodulate initialGain (block_rotating 2047) 0 = some r ∧
      (∀ v ∈ o.tracked, -0xfffffff < v ∧ v < 0xfffffff) ∧
      (8 ≤ ((block_rotating 2047).length + 5) / 8 →
        o.tracked ≠ [] ∧ r.gain.min ∈ o.tracked ∧ r.gain.max ∈ o.tracked ∧
        ∀ v ∈ o.tracked, r.gain.min ≤ v ∧ v ≤ r.gain.max) :=
  ⟨by decide, by decide,
    C13_sentinels_bound_12bit_values initialGain (block_rotating 2047) 0 (by decide) (by decide)⟩

/-- C14 (code defect).  A block of 30 pairs has `num_bytes = 120`, so
`malloc(num_bytes / 64)` provides 1 byte, no whole 16-bit slot; with `min = 0`,
`max = 2` the loop completes one group and stores at index 0. -/
theorem C14_store_beyond_allocation :
    wellFormed (List.replicate 60 0) ∧
    bytes_used (List.replicate 60 (0 : Int)) = 120 ∧
    sample_buffer_slots (bytes_used (List.replicate 60 (0 : Int))) = 0 ∧
    Option.map (fun ro => ro.2.stores)
        (demodulate_observed { min := 0, max := 2 } (List.replicate 60 0) 0) = some [0] := by
  refine ⟨by decide, by decide, by decide, by decide⟩

/-- C15, counterexample.  On `block_rotating 32767` the one tracked value is
`v_0 = 3489447939`, above the range of `int`: the fold of the description
yields `max = 3489447939`, the code leaves `max = -805519357`. -/
theorem C15_counterexample :
    (∀ v ∈ block_rotating 32767, isInt16 v) ∧
    Option.map (fun ro => (ro.1.gain, ro.2.tracked))
        (demodulate_observed initialGain (block_rotating 32767) 0) =
      some ({ min := 0xfffffff, max := -805519357 }, [3489447939]) ∧
    group_values initialGain (block_rotating 32767) = [3489447939] ∧
    fold_max (group_values initialGain (block_rotating 32767)) = 3489447939 := by
  refine ⟨by decide, by decide, by decide, by decide⟩

/-- C15, amended.  For every block the tracked values are `v_0, v_1, ...` of the
complete groups, with `v_k = S_k / 8` when `min < max` and `v_0 = S_0 / 8`,
`v_k = (v_(k-1) + S_k) / 8` when `min >= max`; the outgoing `min` and `max` are
the folds of `if v < m then (int) v` from `0xfffffff` and of
`if v > m then (int) v` from `-0xfffffff` over them, where the assignment
converts the value to `int`.  When every `v_k` fits an `int` these are the
folds without conversion. -/
theorem C15_tracked_values_closed_form (g : GainState) (buffer : List Int) (pa_ret : Int)
    (hwf : wellFormed buffer) :
    ∃ r o, demodulate_observed g buffer pa_ret = some (r, o) ∧
      demodulate g buffer pa_ret = some r ∧
      o.tracked = group_values g buffer ∧
      r.gain.min = fold_min_int (group_values g buffer) ∧
      r.gain.max = fold_max_int (group_values g buffer) ∧
      ((∀ v ∈ group_values g buffer, isInt32 v) →
        r.gain.min = fold_min (group_values g buffer) ∧
        r.gain.max = fold_max (group_values g buffer)) := by
  obtain ⟨r, o, hd, htr, hmin, hmax⟩ := tracked_closed_form (g := g) pa_ret hwf
  refine ⟨r, o, hd, ?_, htr, hmin, hmax, ?_⟩
  · rw [← demodulate_observed_fst, hd]
    rfl
  · intro hfit
    obtain ⟨e1, e2⟩ := folds_int_eq _ hfit
    rw [hmin, hmax, e1, e2]
    exact ⟨rfl, rfl⟩

/-- Witness of C15 (amended): the first cycle on a block of two groups, where
the value of the first group is carried into the second. -/
theorem C15_tracked_values_closed_form_witness :
    wellFormed block_two_groups ∧
    ∃ r o, demodulate_observed initialGain block_two_groups 0 = some (r, o) ∧
      demodulate initialGain block_two_groups 0 = some r ∧
      o.tracked = group_values initialGain block_two_groups ∧
      r.gain.min = fold_min_int (group_values initialGain block_two_groups) ∧
      r.gain.max = fold_max_int (group_values initialGain block_two_groups) ∧
      ((∀ v ∈ group_values initialGain block_two_groups, isInt32 v) →
        r.gain.min = fold_min (group_values initialGain block_two_groups) ∧
        r.gain.max = fold_max (group_values initialGain block_two_groups)) :=
  ⟨by decide, C15_tracked_values_closed_form initialGain block_two_groups 0 (by decide)⟩

/-- C16.  Two blocks of one length that agree on pair 0 and on the pairs whose
index is 1 modulo 4 (values 0, 1 and `j`, `j + 1` for `j = 2, 10, 18, ...`)
give the same result of `demodulate`, samples and outgoing gain state alike,
for every incoming gain state; and these are the only values a cycle reads. -/
theorem C16_unread_pairs_do_not_matter (g : GainState) (b1 b2 : List Int) (pa_ret : Int)
    (hlen : b1.length = b2.length)
    (hagree : ∀ k, k < b1.length → (k / 2 = 0 ∨ (k / 2) % 4 = 1) → b1[k]? = b2[k]?) :
    demodulate g b1 pa_ret = demodulate g b2 pa_ret ∧
    (wellFormed b1 → ∃ r o, demodulate_observed g b1 pa_ret = some (r, o) ∧
      ∀ k ∈ o.reads, k < b1.length ∧ (k / 2 = 0 ∨ (k / 2) % 4 = 1)) := by
  constructor
  · apply demodulate_agree g b1 b2 pa_ret hlen
    intro k hk hc
    exact hagree k hk (by omega)
  · intro hwf
    obtain ⟨r, o, hd, _, _, _, _, _, hreads⟩ := observed_counts (g := g) pa_ret hwf
    refine ⟨r, o, hd, ?_⟩
    intro k hk
    have := hreads k hk
    exact ⟨this.1, by omega⟩

/-- Witness of C16: `block_one_group` and a block that differs from it in the
pairs 2, 3 and 4, which are not read. -/
theorem C16_unread_pairs_do_not_matter_witness :
    block_one_group.length = ([8, 0, 0, 8, 5, -5, 7, -7, 9, -9] ++ List.replicate 56 0).length ∧
    (∀ k, k < block_one_group.length → (k / 2 = 0 ∨ (k / 2) % 4 = 1) →
      block_one_group[k]? = ([8, 0, 0, 8, 5, -5, 7, -7, 9, -9] ++ List.replicate 56 0)[k]?) ∧
    (demodulate { min := 4, max := 12 } block_one_group 0 =
        demodulate { min := 4, max := 12 }
          ([8, 0, 0, 8, 5, -5, 7, -7, 9, -9] ++ List.replicate 56 0) 0 ∧
      (wellFormed block_one_group →
        ∃ r o, demodulate_observed { min := 4, max := 12 } block_one_group 0 = some (r, o) ∧
          ∀ k ∈ o.reads, k < block_one_group.length ∧ (k / 2 = 0 ∨ (k / 2) % 4 = 1))) :=
  ⟨by decide, by decide,
    C16_unread_pairs_do_not_matter { min := 4, max := 12 } block_one_group
      ([8, 0, 0, 8, 5, -5, 7, -7, 9, -9] ++ List.replicate 56 0) 0 (by decide) (by decide)⟩

/-- C17.  A block whose I values are all equal and whose Q values are all equal,
long enough for eight loop iterations, leaves `min = 0` and `max = 0` whatever
the incoming gain state; the cycle that follows, entered with that state,
emits no sample whatever its block. -/
theorem C17_constant_block_decalibrates (g : GainState) (buffer : List Int) (a b : Int)
    (pa_ret : Int) (hwf : wellFormed buffer)
    (hconst : ∀ k, k < buffer.length → buffer[k]? = some (if k % 2 = 0 then a else b))
    (hgroup : 8 ≤ (buffer.length + 5) / 8) :
    ∃ r, demodulate g buffer pa_ret = some r ∧ r.gain = { min := 0, max := 0 } ∧
      ∀ (next : List Int) (pa_next : Int), wellFormed next →
        ∃ r2, demodulate r.gain next pa_next = some r2 ∧ r2.samples = [] := by
  obtain ⟨r, hd, hg⟩ := constant_block_gain (g := g) a b pa_ret hwf hconst hgroup
  refine ⟨r, hd, hg, ?_⟩
  intro next pa_next hnext
  rw [hg]
  exact degenerate_emits_nothing pa_next hnext (by decide)

/-- Witness of C17: 32 pairs, all equal to (5, -3), under `min = 4`, `max = 12`. -/
theorem C17_constant_block_decalibrates_witness :
    wellFormed ((List.range 64).map (fun k => if k % 2 = 0 then (5 : Int) else -3)) ∧
    (∀ k, k < ((List.range 64).map (fun k => if k % 2 = 0 then (5 : Int) else -3)).length →
      ((List.range 64).map (fun k => if k % 2 = 0 then (5 : Int) else -3))[k]? =
        some (if k % 2 = 0 then 5 else -3)) ∧
    8 ≤ (((List.range 64).map (fun k => if k % 2 = 0 then (5 : Int) else -3)).length + 5) / 8 ∧
    ∃ r, demodulate { min := 4, max := 12 }
        ((List.range 64).map (fun k => if k % 2 = 0 then (5 : Int) else -3)) 0 = some r ∧
      r.gain = { min := 0, max := 0 } ∧
      ∀ (next : List Int) (pa_next : Int), wellFormed next →
        ∃ r2, demodulate r.gain next pa_next = some r2 ∧ r2.samples = [] :=
  ⟨by decide, by decide, by decide,
    C17_constant_block_decalibrates { min := 4, max := 12 }
      ((List.range 64).map (fun k => if k % 2 = 0 then (5 : Int) else -3)) 5 (-3) 0
      (by decide) (by decide) (by decide)⟩

/-- C18.  On every block of values in `[-2048, 2047]`, whatever the incoming
gain state, every tracked value `v` has `|v| <= 19169280 < 0xfffffff` and is
stored in `new_min` and `new_max` unchanged; after a cycle that completes at
least one group no sentinel is left and `min <= max`; and `max - min` is in the
range of `int`. -/
theorem C18_twelve_bit_range_bound (g : GainState) (buffer : List Int) (pa_ret : Int)
    (hwf : wellFormed buffer) (hbuf : ∀ v ∈ buffer, -2048 ≤ v ∧ v ≤ 2047) :
    ∃ r o, demodulate_observed g buffer pa_ret = some (r, o) ∧
      demodulate g buffer pa_ret = some r ∧
      (∀ v ∈ o.tracked, -19169280 ≤ v ∧ v ≤ 19169280 ∧ v < 0xfffffff ∧ -0xfffffff < v ∧
        toInt32 v = v) ∧
      (8 ≤ (buffer.length + 5) / 8 →
        r.gain.min ≠ 0xfffffff ∧ r.gain.max ≠ -0xfffffff ∧ r.gain.min ≤ r.gain.max) ∧
      isInt32 (r.gain.max - r.gain.min) := by
  obtain ⟨r, o, hd, hb, hg⟩ := tracked_12bit (g := g) pa_ret hwf hbuf
  obtain ⟨r1, o1, hd1, _, _, hlen, _⟩ := observed_counts (g := g) pa_ret hwf
  rw [hd] at hd1
  simp only [Option.some.injEq, Prod.mk.injEq] at hd1
  obtain ⟨hr, ho⟩ := hd1
  subst hr ho
  refine ⟨r, o, hd, ?_, ?_, ?_, ?_⟩
  · rw [← demodulate_observed_fst, hd]
    rfl
  · intro v hv
    have h := hb v hv
    exact ⟨h.1, h.2, by omega, by omega, toInt32_of_bounds v (by omega) (by omega)⟩
  · intro hgroup
    rcases hg with ⟨he, _, _⟩ | ⟨_, hm, hM, hall⟩
    · rw [he] at hlen
      simp only [List.length_nil] at hlen
      omega
    · have h1 := hb _ hm
      have h2 := hb _ hM
      have h3 := hall _ hm
      exact ⟨by omega, by omega, h3.2⟩
  · unfold isInt32
    rcases hg with ⟨_, hm, hM⟩ | ⟨_, hm, hM, _⟩
    · rw [hm, hM]
      decide
    · have h1 := hb _ hm
      have h2 := hb _ hM
      constructor <;> omega

/-- Witness of C18: a block that swings over the 12-bit range, under
`min = 0`, `max = 2`. -/
theorem C18_twelve_bit_range_bound_witness :
    wellFormed (block_rotating 2047) ∧ (∀ v ∈ block_rotating 2047, -2048 ≤ v ∧ v ≤ 2047) ∧
    ∃ r o, demodulate_observed { min := 0, max := 2 } (block_rotating 2047) 0 = some (r, o) ∧
      demodulate { min := 0, max := 2 } (block_rotating 2047) 0 = some r ∧
      (∀ v ∈ o.tracked, -19169280 ≤ v ∧ v ≤ 19169280 ∧ v < 0xfffffff ∧ -0xfffffff < v ∧
        toInt32 v = v) ∧
      (8 ≤ ((block_rotating 2047).length + 5) / 8 →
        r.gain.min ≠ 0xfffffff ∧ r.gain.max ≠ -0xfffffff ∧ r.gain.min ≤ r.gain.max) ∧
      isInt32 (r.gain.max - r.gain.min) :=
  ⟨by decide, by decide,
    C18_twelve_bit_range_bound { min := 0, max := 2 } (block_rotating 2047) 0
      (by decide) (by decide)⟩

/-- C19.  On a block of `S` values, `S` even and at least 4, the loop makes
`ceil((S - 2) / 8)` iterations; with `min < max` it emits one sample for every
eight of them and with `min >= max` none.  For `S = 32768` these are 4096
iterations and 512 samples. -/
theorem C19_exact_output_count (g : GainState) (buffer : List Int) (pa_ret : Int)
    (heven : buffer.length % 2 = 0) (h4 : 4 ≤ buffer.length) :
    ∃ r o, demodulate_observed g buffer pa_ret = some (r, o) ∧
      demodulate g buffer pa_ret = some r ∧
      o.steps = (buffer.length - 2 + 7) / 8 ∧
      (g.min < g.max → r.samples.length = (buffer.length - 2 + 7) / 8 / 8) ∧
      (g.min ≥ g.max → r.samples.length = 0) ∧
      (buffer.length = 2 * SAMPLES_COUNT →
        o.steps = 4096 ∧ (g.min < g.max → r.samples.length = 512)) := by
  obtain ⟨r, o, hd, hd1, hsteps, _, hlt, hge, _⟩ :=
    observed_counts (g := g) pa_ret (⟨h4, heven⟩ : wellFormed buffer)
  have hceil : (buffer.length - 2 + 7) / 8 = (buffer.length + 5) / 8 := by omega
  refine ⟨r, o, hd, hd1, by omega, ?_, ?_, ?_⟩
  · intro h
    rw [hceil]
    exact (hlt h).1
  · intro h
    rw [(hge h).1]
    rfl
  · intro hfull
    unfold SAMPLES_COUNT at hfull
    refine ⟨by omega, ?_⟩
    intro h
    rw [(hlt h).1, hfull]

/-- Witness of C19: a block of 130 values, 16 iterations, two samples. -/
theorem C19_exact_output_count_witness :
    block_two_groups.length % 2 = 0 ∧ 4 ≤ block_two_groups.length ∧
    ∃ r o, demodulate_observed { min := 0, max := 2 } block_two_groups 0 = some (r, o) ∧
      demodulate { min := 0, max := 2 } block_two_groups 0 = some r ∧
      o.steps = (block_two_groups.length - 2 + 7) / 8 ∧
      ((0 : Int) < 2 → r.samples.length = (block_two_groups.length - 2 + 7) / 8 / 8) ∧
      ((0 : Int) ≥ 2 → r.samples.length = 0) ∧
      (block_two_groups.length = 2 * SAMPLES_COUNT →
        o.steps = 4096 ∧ ((0 : Int) < 2 → r.samples.length = 512)) :=
  ⟨by decide, by decide,
    C19_exact_output_count { min := 0, max := 2 } block_two_groups 0 (by decide) (by decide)⟩

/-! ## The divisor of the normalisation -/

end IioFmRadio
